import Mathlib

/-!
# Verification of the CONLL-U formatting pipeline (`lab_6_pipeline/pipeline.py`)

A shallow embedding of the pipeline's data model and algorithms in Lean 4,
together with theorems settling the specification claims.

Python strings are modelled as lists of characters (`PyStr`).  The character
universe relevant to this program is ASCII together with the Russian Cyrillic
block actually processed by the pipeline; the character classification and
lower-casing functions below embed the behaviour of Python's `re` character
classes (`\w`, `\W`, `\s`, `[а-я]`), `str.isalnum`, `str.isdigit` and
`str.lower` on that universe.

External collaborators (the Mystem analyzer, the pymorphy2 fallback analyzer,
the sentence splitter and the tag-mapping tables) are modelled as explicit
inputs, following the source which consumes them as black boxes.
Fallible Python code (list indexing, `dict` lookup, `re.match(...)[0]`,
`int(...)`) is modelled with `Except`/`Option`; the error kind names the
Python exception class that the corresponding operation raises.
-/

set_option maxRecDepth 16384

/-- Model of a Python `str`: a list of characters. -/
abbrev PyStr := List Char

/-- Embedding of Python's `str.lower` on the character universe of this
program: ASCII upper-case letters and Russian Cyrillic upper-case letters
(including `Ё`) map to their lower-case counterparts, all other characters are
fixed. -/
def pyLower (c : Char) : Char :=
  match c with
  | 'A' => 'a' | 'B' => 'b' | 'C' => 'c' | 'D' => 'd' | 'E' => 'e' | 'F' => 'f'
  | 'G' => 'g' | 'H' => 'h' | 'I' => 'i' | 'J' => 'j' | 'K' => 'k' | 'L' => 'l'
  | 'M' => 'm' | 'N' => 'n' | 'O' => 'o' | 'P' => 'p' | 'Q' => 'q' | 'R' => 'r'
  | 'S' => 's' | 'T' => 't' | 'U' => 'u' | 'V' => 'v' | 'W' => 'w' | 'X' => 'x'
  | 'Y' => 'y' | 'Z' => 'z'
  | 'А' => 'а' | 'Б' => 'б' | 'В' => 'в' | 'Г' => 'г' | 'Д' => 'д' | 'Е' => 'е'
  | 'Ж' => 'ж' | 'З' => 'з' | 'И' => 'и' | 'Й' => 'й' | 'К' => 'к' | 'Л' => 'л'
  | 'М' => 'м' | 'Н' => 'н' | 'О' => 'о' | 'П' => 'п' | 'Р' => 'р' | 'С' => 'с'
  | 'Т' => 'т' | 'У' => 'у' | 'Ф' => 'ф' | 'Х' => 'х' | 'Ц' => 'ц' | 'Ч' => 'ч'
  | 'Ш' => 'ш' | 'Щ' => 'щ' | 'Ъ' => 'ъ' | 'Ы' => 'ы' | 'Ь' => 'ь' | 'Э' => 'э'
  | 'Ю' => 'ю' | 'Я' => 'я' | 'Ё' => 'ё'
  | c => c

/-- Letters and digits of the modelled universe: embedding of the character
test done by Python's `str.isalnum` (ASCII letters and digits, Cyrillic
letters).  Note `'_'` is *not* alphanumeric. -/
def isAlnumChar (c : Char) : Bool :=
  c.isAlphanum || ('А' ≤ c && c ≤ 'я') || c = 'Ё' || c = 'ё'

/-- Embedding of Python's regex class `\w` on the modelled universe:
alphanumeric characters and the underscore. -/
def isWordChar (c : Char) : Bool :=
  isAlnumChar c || c = '_'

/-- Embedding of Python's regex class `[а-я]` (lower-case Cyrillic letters,
`ё` excluded). -/
def isCyrLower (c : Char) : Bool :=
  'а' ≤ c && c ≤ 'я'

/-- Embedding of Python's regex class `\s` (whitespace). -/
def pyIsSpace (c : Char) : Bool :=
  c = ' ' || c = '\t' || c = '\n' || c = '\r' || c = '\x0b' || c = '\x0c'

/-- Embedding of Python's `str.isalnum`: non-empty and every character
alphanumeric. -/
def pyIsAlnum (s : PyStr) : Bool :=
  !s.isEmpty && s.all isAlnumChar

/-- Embedding of Python's `str.isdigit`: non-empty and every character a
decimal digit. -/
def pyIsDigit (s : PyStr) : Bool :=
  !s.isEmpty && s.all Char.isDigit

/-- The upper-case letters that `pyLower` rewrites. -/
def upperIn (c : Char) : Bool :=
  c ∈ ['A', 'B', 'C', 'D', 'E', 'F', 'G', 'H', 'I', 'J', 'K', 'L', 'M', 'N',
    'O', 'P', 'Q', 'R', 'S', 'T', 'U', 'V', 'W', 'X', 'Y', 'Z',
    'А', 'Б', 'В', 'Г', 'Д', 'Е', 'Ж', 'З', 'И', 'Й', 'К', 'Л', 'М', 'Н',
    'О', 'П', 'Р', 'С', 'Т', 'У', 'Ф', 'Х', 'Ц', 'Ч', 'Ш', 'Щ', 'Ъ', 'Ы',
    'Ь', 'Э', 'Ю', 'Я', 'Ё']

theorem pyLower_eq_self {c : Char} (h : upperIn c = false) : pyLower c = c := by
  unfold pyLower
  split <;> first | (exfalso; exact absurd h (by decide)) | rfl

theorem upperIn_pyLower (c : Char) : upperIn (pyLower c) = false := by
  unfold pyLower
  split <;> first | decide | simp_all [upperIn]

theorem pyLower_pyLower (c : Char) : pyLower (pyLower c) = pyLower c :=
  pyLower_eq_self (upperIn_pyLower c)

theorem isWordChar_pyLower {c : Char} (h : isWordChar c = true) :
    isWordChar (pyLower c) = true := by
  unfold pyLower
  split <;> first | rfl | exact h

theorem not_pyIsSpace_of_isWordChar {c : Char} (h : isWordChar c = true) :
    pyIsSpace c = false := by
  cases hs : pyIsSpace c
  · rfl
  · exfalso
    unfold pyIsSpace at hs
    simp only [Bool.or_eq_true, decide_eq_true_eq] at hs
    rcases hs with ((((rfl | rfl) | rfl) | rfl) | rfl) | rfl <;>
      exact absurd h (by decide)

/-- Maximal runs of characters satisfying `p`: embedding of `re.findall` with
a single-character-class-plus pattern (`r'\w+'`, `r'[а-я]+'`). -/
def findallRuns (p : Char → Bool) : PyStr → List PyStr
  | [] => []
  | c :: cs =>
    if p c then (c :: cs.takeWhile p) :: findallRuns p (cs.dropWhile p)
    else findallRuns p cs
termination_by s => s.length
decreasing_by
  · exact Nat.lt_succ_of_le ((List.dropWhile_sublist p).length_le)
  · exact Nat.lt_succ_self _

/-- The word tokens of a sentence: embedding of `re.findall(r'\w+', s)`. -/
def findallWordRuns (s : PyStr) : List PyStr := findallRuns isWordChar s

/-- Embedding of `re.match(r'\w+', s)`: the maximal leading run of word
characters; an empty result models `re.match` returning `None`. -/
def leadingWordRun (s : PyStr) : PyStr := s.takeWhile isWordChar

/-- Embedding of `re.match(r'\d+', s)`: the maximal leading run of decimal
digits; an empty result models `re.match` returning `None`. -/
def leadingDigits (s : PyStr) : PyStr := s.takeWhile Char.isDigit

/-- Numeric value of a digit string (the value `int` computes). -/
def digitsVal (s : PyStr) : Nat := s.foldl (fun acc c => 10 * acc + (c.toNat - 48)) 0

/-- Embedding of `'sep'.join(xs)`. -/
def joinSep (sep : PyStr) : List PyStr → PyStr
  | [] => []
  | [t] => t
  | t :: ts => t ++ sep ++ joinSep sep ts

/-- Embedding of `re.sub(r'\s+', ' ', s)`: every maximal whitespace run is
replaced by a single space. -/
def squeezeWs : PyStr → PyStr
  | [] => []
  | c :: cs =>
    if pyIsSpace c then ' ' :: squeezeWs (cs.dropWhile pyIsSpace)
    else c :: squeezeWs cs
termination_by s => s.length
decreasing_by
  · exact Nat.lt_succ_of_le ((List.dropWhile_sublist pyIsSpace).length_le)
  · exact Nat.lt_succ_self _

/-- Embedding of `str.strip()`: leading and trailing whitespace removed. -/
def pyStrip (s : PyStr) : PyStr :=
  (((s.dropWhile pyIsSpace).reverse.dropWhile pyIsSpace)).reverse

/-- Embedding of Python `int(s)` for a string not containing `'_'`:
surrounding whitespace is stripped, an optional single sign is accepted, and
the remainder must be a non-empty digit string.  Failure models `ValueError`. -/
def pyInt (s : PyStr) : Option Int :=
  match (s.dropWhile pyIsSpace).reverse.dropWhile pyIsSpace |>.reverse with
  | '+' :: rest => if !rest.isEmpty && rest.all Char.isDigit then some (digitsVal rest) else none
  | '-' :: rest => if !rest.isEmpty && rest.all Char.isDigit then some (-(digitsVal rest : Int)) else none
  | t => if !t.isEmpty && t.all Char.isDigit then some (digitsVal t) else none

/-- Embedding of `str.split('_')[0]`: the part of the string before its first
underscore. -/
def beforeUnderscore (s : PyStr) : PyStr := s.takeWhile (· ≠ '_')

/-- Lexicographic comparison of Python strings by code point (the order used
by `sorted`). -/
def strLe : PyStr → PyStr → Bool
  | [], _ => true
  | _ :: _, [] => false
  | a :: as, b :: bs => if a < b then true else if b < a then false else strLe as bs

/-- Python exceptions raised by the modelled code.  `indexError` (list index
out of range) is the alignment-exhaustion failure the specification names
`AlignmentExhaustedError`; `keyError` (missing `dict` key in a tag-mapping
table) is the failure the specification names `UnmappedTagError`; `typeError`
is raised by subscripting the `None` returned by a failed `re.match`;
`valueError` by `int()` on a non-numeric string. -/
inductive PyErr
  | indexError
  | typeError
  | keyError
  | valueError
deriving DecidableEq, Repr

/-- The categories of the tag-mapping table, mirroring the `TagConverter`
attributes `self.pos`, `self.case`, `self.number`, `self.gender`,
`self.animacy`, `self.tense` used by `pipeline.py`. -/
inductive Category
  | pos
  | case
  | number
  | gender
  | animacy
  | tense
deriving DecidableEq, Repr

/-- Modelled from the spec: the category key strings held by the
`TagConverter` attributes (`core_utils.article.ud.TagConverter` is not under
`src/`); the spec names the feature categories "case, number, gender,
animacy, tense" and renders feature strings as `key=value` pairs sorted
alphabetically by these keys. -/
def categoryKey : Category → PyStr
  | .pos => "pos".data
  | .case => "case".data
  | .number => "number".data
  | .gender => "gender".data
  | .animacy => "animacy".data
  | .tense => "tense".data

/-- A loaded tag-mapping table `self._tag_mapping`: for each category, the
partial map from a raw analyzer tag token to its normalized value (`none`
models the raw token being absent from `self._tag_mapping[category]`).  The
model assumes the table file provides every category, as the repository's
mapping files do. -/
abbrev TagMap := Category → PyStr → Option PyStr

/-- Lookup in the insertion-ordered dict `ud_tags`. -/
def lookupCat (ud : List (Category × PyStr)) (c : Category) : Option PyStr :=
  (ud.find? (fun p => p.1 = c)).map Prod.snd

/-- One pass of the inner loop of `MystemTagConverter.convert_morphological_tags`:
`for category in (self.case, self.number, self.gender, self.animacy, self.tense):
if tag in self._tag_mapping[category] and category not in ud_tags:
ud_tags[category] = self._tag_mapping[category][tag]; break`. -/
def assignTag (m : TagMap) (tag : PyStr) : List Category → List (Category × PyStr) → List (Category × PyStr)
  | [], ud => ud
  | c :: cs, ud =>
    match m c tag, lookupCat ud c with
    | some v, none => ud ++ [(c, v)]
    | _, _ => assignTag m tag cs ud

/-- The category priority tuple of `convert_morphological_tags`. -/
def priorityOrder : List Category :=
  [Category.case, Category.number, Category.gender, Category.animacy, Category.tense]

/-- The insertion-ordered dict `ud_tags` built by
`MystemTagConverter.convert_morphological_tags` from the extracted
`[а-я]+` runs of the raw tag string. -/
def mystemFeaturePairs (m : TagMap) (tags : PyStr) : List (Category × PyStr) :=
  (findallRuns isCyrLower tags).foldl (fun ud tag => assignTag m tag priorityOrder ud) []

/-- Render `f'{k}={v}'` pairs joined with `'|'`. -/
def renderPairs (ud : List (Category × PyStr)) : PyStr :=
  joinSep ['|'] (ud.map (fun p => categoryKey p.1 ++ ['='] ++ p.2))

/-- Insert a pair into a list sorted by ascending category key. -/
def insertPair (p : Category × PyStr) : List (Category × PyStr) → List (Category × PyStr)
  | [] => [p]
  | q :: qs =>
    if strLe (categoryKey p.1) (categoryKey q.1) then p :: q :: qs
    else q :: insertPair p qs

/-- Embedding of `sorted(ud_tags.items())`.  The dict keys are the distinct
category key strings, so Python's lexicographic sort of `(key, value)` pairs
orders the items by ascending key; `sortPairs` produces that order by
insertion sort on the key. -/
def sortPairs (l : List (Category × PyStr)) : List (Category × PyStr) :=
  l.foldr insertPair []

namespace MystemTagConverter

/-- Embedding of `MystemTagConverter.convert_morphological_tags`. -/
def convert_morphological_tags (m : TagMap) (tags : PyStr) : PyStr :=
  renderPairs (sortPairs (mystemFeaturePairs m tags))

/-- Embedding of `MystemTagConverter.convert_pos`:
`pos = re.match(r'\w+', tags)[0]; return self._tag_mapping[self.pos][pos]`. -/
def convert_pos (m : TagMap) (tags : PyStr) : Except PyErr PyStr :=
  match leadingWordRun tags with
  | [] => Except.error PyErr.typeError
  | p =>
    match m Category.pos p with
    | some v => Except.ok v
    | none => Except.error PyErr.keyError

end MystemTagConverter

/-- The discrete tag structure returned by the pymorphy2 fallback analyzer
(an `OpencorporaTag`): named fields, each possibly `None`. -/
structure OpencorporaTag where
  POS : Option PyStr := none
  animacy : Option PyStr := none
  case : Option PyStr := none
  gender : Option PyStr := none
  number : Option PyStr := none
deriving DecidableEq, Repr

/-- One iteration of the loop of
`OpenCorporaTagConverter.convert_morphological_tags`:
`if v is not None: ud_tags[k] = self._tag_mapping[k][v]`. -/
def dictAssign (m : TagMap) (ud : List (Category × PyStr)) (c : Category)
    (v : Option PyStr) : Except PyErr (List (Category × PyStr)) :=
  match v with
  | none => Except.ok ud
  | some raw =>
    match m c raw with
    | some u => Except.ok (ud ++ [(c, u)])
    | none => Except.error PyErr.keyError

namespace OpenCorporaTagConverter

/-- Embedding of `OpenCorporaTagConverter.convert_pos`: returns the Python
`None` (modelled `Option.none`) when `tags.POS is None`, otherwise looks the
POS up in the mapping table. -/
def convert_pos (m : TagMap) (t : OpencorporaTag) : Except PyErr (Option PyStr) :=
  match t.POS with
  | some p =>
    match m Category.pos p with
    | some v => Except.ok (some v)
    | none => Except.error PyErr.keyError
  | none => Except.ok none

/-- The insertion-ordered dict `ud_tags` built by
`OpenCorporaTagConverter.convert_morphological_tags`, filled in the source's
iteration order animacy, case, gender, number. -/
def featurePairs (m : TagMap) (t : OpencorporaTag) : Except PyErr (List (Category × PyStr)) :=
  match dictAssign m [] Category.animacy t.animacy with
  | Except.error e => Except.error e
  | Except.ok u1 =>
    match dictAssign m u1 Category.case t.case with
    | Except.error e => Except.error e
    | Except.ok u2 =>
      match dictAssign m u2 Category.gender t.gender with
      | Except.error e => Except.error e
      | Except.ok u3 => dictAssign m u3 Category.number t.number

/-- Embedding of `OpenCorporaTagConverter.convert_morphological_tags`:
`'|'.join(f'{k}={v}' for k, v in ud_tags.items())` (no sorting). -/
def convert_morphological_tags (m : TagMap) (t : OpencorporaTag) : Except PyErr PyStr :=
  match featurePairs m t with
  | Except.error e => Except.error e
  | Except.ok ud => Except.ok (renderPairs ud)

end OpenCorporaTagConverter

/-- Embedding of `MorphologicalTokenDTO`.  The `pos` field is an `Option`
because the advanced pipeline can store the Python `None` returned by
`OpenCorporaTagConverter.convert_pos`; the `__init__` defaults are empty
strings.  The attribute `lemma` is spelled `lemma'` (Lean reserves `lemma`). -/
structure MorphologicalTokenDTO where
  lemma' : PyStr := []
  pos : Option PyStr := some []
  tags : PyStr := []
deriving DecidableEq, Repr

/-- Embedding of `ConlluToken`: `_text`, `_morphological_parameters` and
`_position` (initially the Python `None`). -/
structure ConlluToken where
  text : PyStr
  morphological_parameters : MorphologicalTokenDTO := {}
  position : Option Nat := none
deriving DecidableEq, Repr

/-- Embedding of `ConlluToken.__init__`. -/
def ConlluToken.init (text : PyStr) : ConlluToken := ⟨text, {}, none⟩

/-- Embedding of `str(self._position)` (`str(None)` is `"None"`). -/
def positionText : Option Nat → PyStr
  | none => "None".data
  | some n => Nat.toDigits 10 n

/-- The `pos` local of `get_conllu_text`: the stored part-of-speech with the
fallback `'X'` applied when the stored value is the Python `None`. -/
def ConlluToken.rendered_pos (t : ConlluToken) : PyStr :=
  match t.morphological_parameters.pos with
  | none => ['X']
  | some p => p

/-- The `feats` local of `get_conllu_text`: `'_'` unless morphological tags
are included and the stored tag string is non-empty (truthy). -/
def ConlluToken.rendered_feats (t : ConlluToken) (include_morphological_tags : Bool) : PyStr :=
  if include_morphological_tags then
    (if t.morphological_parameters.tags.isEmpty then ['_'] else t.morphological_parameters.tags)
  else ['_']

/-- Embedding of `ConlluToken.get_conllu_text`: the 10-field tab-joined
record. -/
def ConlluToken.get_conllu_text (t : ConlluToken) (include_morphological_tags : Bool) : PyStr :=
  joinSep ['\t'] [positionText t.position, t.text, t.morphological_parameters.lemma',
    t.rendered_pos, ['_'], t.rendered_feats include_morphological_tags,
    ['0'], "root".data, ['_'], ['_']]

/-- Embedding of `ConlluToken.get_cleaned`:
`re.sub(r'\W+', '', self._text).lower()`. -/
def ConlluToken.get_cleaned (t : ConlluToken) : PyStr :=
  (t.text.filter isWordChar).map pyLower

/-- Embedding of `ConlluSentence`. -/
structure ConlluSentence where
  position : Nat
  text : PyStr
  tokens : List ConlluToken
deriving DecidableEq, Repr

/-- Embedding of `ConlluSentence.get_cleaned_sentence`: space-join the
cleaned tokens, collapse whitespace runs, strip. -/
def ConlluSentence.get_cleaned_sentence (s : ConlluSentence) : PyStr :=
  pyStrip (squeezeWs (joinSep [' '] (s.tokens.map ConlluToken.get_cleaned)))

/-- One candidate analysis inside a Mystem result entry
(`{'lex': ..., 'gr': ...}`). -/
structure Analysis where
  lex : PyStr
  gr : PyStr
deriving DecidableEq, Repr

/-- One entry of the flat Mystem result stream (`{'text': ...}` with an
optional `'analysis'` list; `analysis = none` models the key being absent). -/
structure MystemEntry where
  text : PyStr
  analysis : Option (List Analysis) := none
deriving DecidableEq, Repr

/-- One candidate returned by the pymorphy2 fallback analyzer's `parse`. -/
structure ParseResult where
  normal_form : PyStr
  tag : OpencorporaTag
deriving DecidableEq, Repr

/-- The synthetic sentence-final token appended by both `_process` methods:
`ConlluToken('.')` carrying `MorphologicalTokenDTO('.', 'PUNCT')` at position
`len(words) + 1`. -/
def terminalToken (wordCount : Nat) : ConlluToken :=
  ⟨['.'], ⟨['.'], some "PUNCT".data, []⟩, some (wordCount + 1)⟩

/-- The word loop of `_process`, shared verbatim by both pipelines up to the
per-entry classification `cl`: for each word (1-based index `i`), the cursor
`c` into the flat `result` stream advances past at most one entry whose text
is not purely alphanumeric (`if`, not `while`), then the entry at the cursor
is taken, classified by `cl`, emitted as the token for word `i`, and the
cursor advances by one.  Out-of-range stream access is the Python
`IndexError`. -/
def processWordsWith (cl : MystemEntry → Except PyErr MorphologicalTokenDTO)
    (result : List MystemEntry) :
    List PyStr → Nat → Nat → Except PyErr (List ConlluToken × Nat)
  | [], _, c => Except.ok ([], c)
  | _w :: ws, i, c =>
    match result.get? c with
    | none => Except.error PyErr.indexError
    | some e0 =>
      match result.get? (if pyIsAlnum e0.text then c else c + 1) with
      | none => Except.error PyErr.indexError
      | some analyzed =>
        match cl analyzed with
        | Except.error e => Except.error e
        | Except.ok dto =>
          match processWordsWith cl result ws (i + 1)
              ((if pyIsAlnum e0.text then c else c + 1) + 1) with
          | Except.error e => Except.error e
          | Except.ok (toks, c') =>
            Except.ok (⟨analyzed.text, dto, some i⟩ :: toks, c')

/-- The sentence loop of `_process`: sentences are numbered from 0, the word
tokens of each sentence are `re.findall(r'\w+', sentence)`, and the terminal
token is appended after the words. The cursor is never reset between
sentences. -/
def processTextWith (cl : MystemEntry → Except PyErr MorphologicalTokenDTO)
    (result : List MystemEntry) :
    List PyStr → Nat → Nat → Except PyErr (List ConlluSentence)
  | [], _, _ => Except.ok []
  | s :: ss, ind, c =>
    match processWordsWith cl result (findallWordRuns s) 1 c with
    | Except.error e => Except.error e
    | Except.ok (toks, c') =>
      match processTextWith cl result ss (ind + 1) c' with
      | Except.error e => Except.error e
      | Except.ok rest =>
        Except.ok (⟨ind, s, toks ++ [terminalToken (findallWordRuns s).length]⟩ :: rest)

namespace MorphologicalAnalysisPipeline

/-- The per-entry classification of `MorphologicalAnalysisPipeline._process`:
best candidate analysis through the Mystem tag converter when present,
else `NUM` for all-digit text, else `X`. -/
def classify (m : TagMap) (e : MystemEntry) : Except PyErr MorphologicalTokenDTO :=
  match e.analysis with
  | some (a :: _) =>
    match MystemTagConverter.convert_pos m a.gr with
    | Except.error err => Except.error err
    | Except.ok pos =>
      Except.ok ⟨a.lex, some pos, MystemTagConverter.convert_morphological_tags m a.gr⟩
  | _ =>
    if pyIsDigit e.text then Except.ok ⟨e.text, some "NUM".data, []⟩
    else Except.ok ⟨e.text, some ['X'], []⟩

/-- Embedding of `MorphologicalAnalysisPipeline._process`.  The external
collaborators are inputs: `sentences` models `split_by_sentence(text)` and
`result` models `self._analyzer.analyze(re.sub(r'\W+', ' ', text))`. -/
def process (m : TagMap) (sentences : List PyStr) (result : List MystemEntry) :
    Except PyErr (List ConlluSentence) :=
  processTextWith (classify m) result sentences 0 0

end MorphologicalAnalysisPipeline

namespace AdvancedMorphologicalAnalysisPipeline

/-- The per-entry classification of
`AdvancedMorphologicalAnalysisPipeline._process`: as in the base pipeline,
except that when the primary converted part-of-speech equals `'NOUN'` the
lemma, part-of-speech and features are re-derived from the first candidate
of the fallback analyzer (`self._backup_analyzer.parse(...)[0]`) through the
OpenCorpora tag converter. -/
def classify (m bm : TagMap) (backup : PyStr → List ParseResult) (e : MystemEntry) :
    Except PyErr MorphologicalTokenDTO :=
  match e.analysis with
  | some (a :: _) =>
    match MystemTagConverter.convert_pos m a.gr with
    | Except.error err => Except.error err
    | Except.ok pos =>
      if pos = "NOUN".data then
        match (backup e.text).get? 0 with
        | none => Except.error PyErr.indexError
        | some p =>
          match OpenCorporaTagConverter.convert_pos bm p.tag with
          | Except.error err => Except.error err
          | Except.ok pos2 =>
            match OpenCorporaTagConverter.convert_morphological_tags bm p.tag with
            | Except.error err => Except.error err
            | Except.ok tags2 => Except.ok ⟨p.normal_form, pos2, tags2⟩
      else
        Except.ok ⟨a.lex, some pos, MystemTagConverter.convert_morphological_tags m a.gr⟩
  | _ =>
    if pyIsDigit e.text then Except.ok ⟨e.text, some "NUM".data, []⟩
    else Except.ok ⟨e.text, some ['X'], []⟩

/-- Embedding of `AdvancedMorphologicalAnalysisPipeline._process`; `backup`
models `self._backup_analyzer.parse`. -/
def process (m bm : TagMap) (backup : PyStr → List ParseResult)
    (sentences : List PyStr) (result : List MystemEntry) :
    Except PyErr (List ConlluSentence) :=
  processTextWith (classify m bm backup) result sentences 0 0

end AdvancedMorphologicalAnalysisPipeline

/-- The raise sites of `CorpusManager._validate_dataset` (beyond the
filesystem existence checks, which are out of scope): one constructor per
`raise` statement, plus the Python exceptions escaping the ID extraction
expressions. -/
inductive DatasetErr
  | metaOrder       -- InconsistentDatasetError: meta IDs not 1..n
  | rawOrder        -- InconsistentDatasetError: raw IDs not 1..n
  | countMismatch   -- InconsistentDatasetError: meta/raw counts differ
  | emptyDirectory  -- EmptyDirectoryError
  | duplicateIds    -- InconsistentDatasetError("IDs contain duplicates")
  | emptyFiles      -- InconsistentDatasetError: empty raw files
  | typeError       -- re.match(r'\d+', name) returned None
  | valueError      -- int() on a non-numeric ID segment
deriving DecidableEq, Repr

/-- Embedding of `sorted(int(re.match(r'\d+', i.name)[0]) for i in files)`
before sorting: the leading-digit IDs, failing with `TypeError` on a name
that does not start with a digit. -/
def extractLeadIds : List PyStr → Except DatasetErr (List Nat)
  | [] => Except.ok []
  | n :: ns =>
    match leadingDigits n with
    | [] => Except.error DatasetErr.typeError
    | ds =>
      match extractLeadIds ns with
      | Except.error e => Except.error e
      | Except.ok ids => Except.ok (digitsVal ds :: ids)

/-- Embedding of `[int(file.name.split("_")[0]) for file in raw_files]`,
failing with `ValueError` when a segment is not numeric. -/
def extractSplitIds : List PyStr → Except DatasetErr (List Int)
  | [] => Except.ok []
  | n :: ns =>
    match pyInt (beforeUnderscore n) with
    | none => Except.error DatasetErr.valueError
    | some k =>
      match extractSplitIds ns with
      | Except.error e => Except.error e
      | Except.ok ids => Except.ok (k :: ids)

/-- Embedding of `CorpusManager._validate_dataset` from the point where the
path exists and is a directory: the dataset is given as the `*_meta.json`
file names and the `*_raw.txt` file names paired with their sizes, in glob
order. -/
def validate_dataset (metaNames : List PyStr) (rawFiles : List (PyStr × Nat)) :
    Except DatasetErr Unit :=
  match extractLeadIds metaNames with
  | Except.error e => Except.error e
  | Except.ok metaIds =>
    if metaIds.insertionSort (· ≤ ·) ≠ List.range' 1 metaNames.length then
      Except.error DatasetErr.metaOrder
    else
      match extractLeadIds (rawFiles.map Prod.fst) with
      | Except.error e => Except.error e
      | Except.ok rawIds =>
        if rawIds.insertionSort (· ≤ ·) ≠ List.range' 1 rawFiles.length then
          Except.error DatasetErr.rawOrder
        else if metaNames.length ≠ rawFiles.length then
          Except.error DatasetErr.countMismatch
        else if metaNames.isEmpty || rawFiles.isEmpty then
          Except.error DatasetErr.emptyDirectory
        else
          match extractSplitIds (rawFiles.map Prod.fst) with
          | Except.error e => Except.error e
          | Except.ok fileIds =>
            if fileIds.length ≠ fileIds.dedup.length then
              Except.error DatasetErr.duplicateIds
            else if (rawFiles.filter (fun f => f.2 = 0)).isEmpty then
              Except.ok ()
            else
              Except.error DatasetErr.emptyFiles

/-- Modelled from the spec's wording of the feature-extraction tie-break, for
comparison with the source's loop: "determine which feature category it
belongs to by checking categories in a fixed priority order — case, number,
gender, animacy, tense — and assign it to the first category for which (a)
the marker is registered under that category in the table AND (b) that
category has not yet been assigned a value for this token". -/
def specFirstCategory (m : TagMap) (ud : List (Category × PyStr)) (tag : PyStr) :
    Option Category :=
  priorityOrder.find? (fun c => (m c tag).isSome && (lookupCat ud c).isNone)

/-- The spec-worded assignment step: assign the marker's mapped value to
`specFirstCategory`, or leave the assignment unchanged when there is none. -/
def specAssignStep (m : TagMap) (ud : List (Category × PyStr)) (tag : PyStr) :
    List (Category × PyStr) :=
  match specFirstCategory m ud tag with
  | none => ud
  | some c => ud ++ [(c, (m c tag).getD [])]

theorem lookupCat_eq_none_iff {ud : List (Category × PyStr)} {c : Category} :
    lookupCat ud c = none ↔ c ∉ ud.map Prod.fst := by
  unfold lookupCat
  rw [Option.map_eq_none', List.find?_eq_none]
  simp only [List.mem_map, decide_eq_true_eq, not_exists, not_and]

theorem assignTag_eq_find (m : TagMap) (tag : PyStr) :
    ∀ (cats : List Category) (ud : List (Category × PyStr)),
      assignTag m tag cats ud =
        match cats.find? (fun c => (m c tag).isSome && (lookupCat ud c).isNone) with
        | none => ud
        | some c => ud ++ [(c, (m c tag).getD [])] := by
  intro cats
  induction cats with
  | nil => intro ud; rfl
  | cons c cs ih =>
    intro ud
    rw [List.find?_cons]
    unfold assignTag
    cases hm : m c tag with
    | none => simpa [hm] using ih ud
    | some v =>
      cases hl : lookupCat ud c with
      | none => simp [hm, hl]
      | some w => simpa [hm, hl] using ih ud

theorem assignTag_keys_nodup (m : TagMap) (tag : PyStr) (cats : List Category)
    (ud : List (Category × PyStr)) (h : (ud.map Prod.fst).Nodup) :
    ((assignTag m tag cats ud).map Prod.fst).Nodup := by
  rw [assignTag_eq_find]
  cases hf : cats.find? (fun c => (m c tag).isSome && (lookupCat ud c).isNone) with
  | none => exact h
  | some c =>
    have hc := List.find?_some hf
    simp only [Bool.and_eq_true, Option.isSome_iff_exists, Option.isNone_iff_eq_none] at hc
    have hnotin : c ∉ ud.map Prod.fst := lookupCat_eq_none_iff.mp hc.2
    simp only [List.map_append, List.nodup_append]
    refine ⟨h, by simp, ?_⟩
    intro x hx hx'
    simp only [List.map_cons, List.map_nil, List.mem_cons, List.not_mem_nil, or_false] at hx'
    exact hnotin (hx' ▸ hx)

theorem foldl_assignTag_keys_nodup (m : TagMap) (l : List PyStr)
    (ud : List (Category × PyStr)) (h : (ud.map Prod.fst).Nodup) :
    (((l.foldl (fun ud tag => assignTag m tag priorityOrder ud) ud)).map Prod.fst).Nodup := by
  induction l generalizing ud with
  | nil => exact h
  | cons t ts ih =>
    exact ih _ (assignTag_keys_nodup m t priorityOrder ud h)

/-- C4: for every raw Mystem tag string, each extracted marker is assigned to
the first category of the fixed priority order case, number, gender, animacy,
tense under which it is registered in the table and which is still
unassigned (the source loop is extensionally the spec-worded
`specAssignStep`), and the resulting assignment holds at most one value per
category (its keys are pairwise distinct). -/
theorem claim_C4 (m : TagMap) (tags : PyStr) :
    mystemFeaturePairs m tags =
      (findallRuns isCyrLower tags).foldl (fun ud tag => specAssignStep m ud tag) [] ∧
    ((mystemFeaturePairs m tags).map Prod.fst).Nodup := by
  constructor
  · unfold mystemFeaturePairs
    have hfun : (fun ud tag => assignTag m tag priorityOrder ud) =
        (fun ud tag => specAssignStep m ud tag) := by
      funext ud tag
      rw [assignTag_eq_find]
      rfl
    rw [hfun]
  · exact foldl_assignTag_keys_nodup m _ [] (by simp)

theorem strLe_total : ∀ a b : PyStr, strLe a b = true ∨ strLe b a = true
  | [], _ => by left; rfl
  | _ :: _, [] => by right; rfl
  | x :: as, y :: bs => by
    unfold strLe
    rcases lt_trichotomy x y with h | h | h
    · left; simp [h, asymm h]
    · subst h
      simpa [lt_irrefl] using strLe_total as bs
    · right; simp [h, asymm h]

theorem strLe_trans : ∀ {a b c : PyStr}, strLe a b = true → strLe b c = true →
    strLe a c = true
  | [], _, _, _, _ => rfl
  | x :: as, y :: bs, z :: cs, hab, hbc => by
    unfold strLe at hab hbc ⊢
    rcases lt_trichotomy x y with h1 | h1 | h1
    · rcases lt_trichotomy y z with h2 | h2 | h2
      · simp [lt_trans h1 h2, asymm (lt_trans h1 h2)]
      · subst h2; simp [h1, asymm h1]
      · simp [h2, asymm h2, lt_irrefl] at hbc
    · subst h1
      rcases lt_trichotomy x z with h2 | h2 | h2
      · simp [h2, asymm h2]
      · subst h2
        simp only [lt_irrefl, if_false] at hab hbc ⊢
        exact strLe_trans hab hbc
      · simp [h2, asymm h2, lt_irrefl] at hbc
    · simp [h1, asymm h1, lt_irrefl] at hab

/-- Key-order comparison used to state sortedness of feature pairs. -/
def keyLe (p q : Category × PyStr) : Bool :=
  strLe (categoryKey p.1) (categoryKey q.1)

theorem mem_insertPair {x p : Category × PyStr} :
    ∀ {l : List (Category × PyStr)}, x ∈ insertPair p l → x = p ∨ x ∈ l := by
  intro l
  induction l with
  | nil => intro h; simpa [insertPair] using h
  | cons q qs ih =>
    intro h
    unfold insertPair at h
    split at h
    · rcases List.mem_cons.mp h with h1 | h1
      · exact Or.inl h1
      · exact Or.inr h1
    · rcases List.mem_cons.mp h with h1 | h1
      · exact Or.inr (by simp [h1])
      · rcases ih h1 with h2 | h2
        · exact Or.inl h2
        · exact Or.inr (List.mem_cons_of_mem q h2)

theorem pairwise_insertPair {p : Category × PyStr} :
    ∀ {l : List (Category × PyStr)},
      l.Pairwise (fun a b => keyLe a b = true) →
      (insertPair p l).Pairwise (fun a b => keyLe a b = true) := by
  intro l
  induction l with
  | nil => intro _; simp [insertPair]
  | cons q qs ih =>
    intro h
    rcases List.pairwise_cons.mp h with ⟨hq, hqs⟩
    unfold insertPair
    split
    · rename_i hle
      refine List.pairwise_cons.mpr ⟨?_, h⟩
      intro b hb
      rcases List.mem_cons.mp hb with rfl | hb'
      · exact hle
      · exact strLe_trans hle (hq b hb')
    · rename_i hnle
      have hqp : keyLe q p = true := by
        rcases strLe_total (categoryKey p.1) (categoryKey q.1) with h' | h'
        · exact absurd h' hnle
        · exact h'
      refine List.pairwise_cons.mpr ⟨?_, ih hqs⟩
      intro b hb
      rcases mem_insertPair hb with rfl | hb'
      · exact hqp
      · exact hq b hb'

theorem pairwise_sortPairs (l : List (Category × PyStr)) :
    (sortPairs l).Pairwise (fun a b => keyLe a b = true) := by
  unfold sortPairs
  induction l with
  | nil => simp
  | cons p ps ih => exact pairwise_insertPair ih

theorem dictAssign_ok {m : TagMap} {ud : List (Category × PyStr)} {c : Category}
    {v : Option PyStr} {ud' : List (Category × PyStr)}
    (h : dictAssign m ud c v = Except.ok ud') :
    ud' = ud ∨ ∃ u, ud' = ud ++ [(c, u)] := by
  cases v with
  | none =>
    simp only [dictAssign, Except.ok.injEq] at h
    exact Or.inl h.symm
  | some raw =>
    cases hm : m c raw with
    | none => simp [dictAssign, hm] at h
    | some u =>
      simp only [dictAssign, hm, Except.ok.injEq] at h
      exact Or.inr ⟨u, h.symm⟩

/-- C6: a raw tag whose primary (leading) tag token is present but absent
from the mapping table's part-of-speech category makes part-of-speech
conversion fail with the mapping-table `KeyError` — the failure the spec
names `UnmappedTagError` — for both converter variants; neither degrades to
a per-token soft fallback. -/
theorem claim_C6 (m : TagMap) :
    (∀ tags : PyStr, leadingWordRun tags ≠ [] →
      m Category.pos (leadingWordRun tags) = none →
      MystemTagConverter.convert_pos m tags = Except.error PyErr.keyError) ∧
    (∀ (t : OpencorporaTag) (p : PyStr), t.POS = some p →
      m Category.pos p = none →
      OpenCorporaTagConverter.convert_pos m t = Except.error PyErr.keyError) := by
  constructor
  · intro tags hne hnone
    unfold MystemTagConverter.convert_pos
    cases hlw : leadingWordRun tags with
    | nil => exact absurd hlw hne
    | cons a as =>
      rw [hlw] at hnone
      simp [hnone]
  · intro t p hp hnone
    simp [OpenCorporaTagConverter.convert_pos, hp, hnone]

/-- The everywhere-undefined mapping table, used as a witness input. -/
def tableEmpty : TagMap := fun _ _ => none

theorem claim_C6_witness :
    MystemTagConverter.convert_pos tableEmpty "S,муж".data = Except.error PyErr.keyError ∧
    OpenCorporaTagConverter.convert_pos tableEmpty
      { POS := some "NOUN".data } = Except.error PyErr.keyError :=
  ⟨(claim_C6 tableEmpty).1 "S,муж".data (by decide) rfl,
   (claim_C6 tableEmpty).2 { POS := some "NOUN".data } "NOUN".data rfl rfl⟩

/-- C8: both converter variants produce their feature string as `key=value`
pairs joined by `'|'` with category keys in ascending (alphabetical)
lexicographic order: the Mystem variant sorts its dict items, and the
OpenCorpora variant fills its dict in the source order animacy, case,
gender, number, whose keys are already alphabetical. -/
theorem claim_C8 (m : TagMap) :
    (∀ tags : PyStr,
      MystemTagConverter.convert_morphological_tags m tags =
        renderPairs (sortPairs (mystemFeaturePairs m tags)) ∧
      ((sortPairs (mystemFeaturePairs m tags)).map (fun p => categoryKey p.1)).Pairwise
        (fun a b => strLe a b = true)) ∧
    (∀ (t : OpencorporaTag) (ud : List (Category × PyStr)),
      OpenCorporaTagConverter.featurePairs m t = Except.ok ud →
      OpenCorporaTagConverter.convert_morphological_tags m t =
        Except.ok (renderPairs ud) ∧
      (ud.map (fun p => categoryKey p.1)).Pairwise (fun a b => strLe a b = true)) := by
  constructor
  · intro tags
    refine ⟨rfl, ?_⟩
    exact (pairwise_sortPairs _).map _ (fun a b h => h)
  · intro t ud hud
    constructor
    · unfold OpenCorporaTagConverter.convert_morphological_tags
      rw [hud]
    · unfold OpenCorporaTagConverter.featurePairs at hud
      cases h1 : dictAssign m [] Category.animacy t.animacy with
      | error e => rw [h1] at hud; exact absurd hud (by simp)
      | ok u1 =>
        rw [h1] at hud; dsimp only at hud
        cases h2 : dictAssign m u1 Category.case t.case with
        | error e => rw [h2] at hud; exact absurd hud (by simp)
        | ok u2 =>
          rw [h2] at hud; dsimp only at hud
          cases h3 : dictAssign m u2 Category.gender t.gender with
          | error e => rw [h3] at hud; exact absurd hud (by simp)
          | ok u3 =>
            rw [h3] at hud; dsimp only at hud
            rcases dictAssign_ok h1 with rfl | ⟨va, rfl⟩ <;>
              rcases dictAssign_ok h2 with rfl | ⟨vc, rfl⟩ <;>
                rcases dictAssign_ok h3 with rfl | ⟨vg, rfl⟩ <;>
                  rcases dictAssign_ok hud with rfl | ⟨vn, rfl⟩ <;>
                    simp <;> decide

/-- The identity mapping table (every raw tag maps to itself), used as a
witness input. -/
def tableId : TagMap := fun _ t => some t

/-- Concrete OpenCorpora tag record used in the C8 witness. -/
def ocTagW : OpencorporaTag :=
  { animacy := some "anim".data, case := some "nomn".data, number := some "plur".data }

/-- Concrete feature-pair dict produced for `ocTagW` by the identity table. -/
def udW : List (Category × PyStr) :=
  [(Category.animacy, "anim".data), (Category.case, "nomn".data),
   (Category.number, "plur".data)]

theorem claim_C8_witness :
    (MystemTagConverter.convert_morphological_tags tableId "од=им,ед".data =
      renderPairs (sortPairs (mystemFeaturePairs tableId "од=им,ед".data)) ∧
    ((sortPairs (mystemFeaturePairs tableId "од=им,ед".data)).map
      (fun p => categoryKey p.1)).Pairwise (fun a b => strLe a b = true)) ∧
    (OpenCorporaTagConverter.convert_morphological_tags tableId ocTagW =
      Except.ok (renderPairs udW) ∧
    (udW.map (fun p => categoryKey p.1)).Pairwise (fun a b => strLe a b = true)) :=
  ⟨(claim_C8 tableId).1 "од=им,ед".data,
   (claim_C8 tableId).2 ocTagW udW (by rfl)⟩

/-- C1 as stated is false on the code: the skip of non-content entries is a
single-step `if`, not a `while` loop.  With two consecutive non-alphanumeric
entries `", "` and `". "` before the word `"ab"`, the word-loop discards only
the first and takes the second — still non-alphanumeric — entry as the
analysis for word 1, so the emitted token's surface form is `". "` rather
than the analysis of the `"ab"` entry the claimed loop would reach. -/
theorem claim_C1_counterexample :
    MorphologicalAnalysisPipeline.process tableEmpty ["ab".data]
      [⟨", ".data, none⟩, ⟨". ".data, none⟩, ⟨"ab".data, some [⟨"ab".data, "S".data⟩]⟩] =
      Except.ok [⟨0, "ab".data,
        [⟨". ".data, ⟨". ".data, some ['X'], []⟩, some 1⟩, terminalToken 1]⟩] ∧
    pyIsAlnum ", ".data = false ∧ pyIsAlnum ". ".data = false := by
  refine ⟨?_, by decide, by decide⟩
  simp +decide [MorphologicalAnalysisPipeline.process, processTextWith,
    processWordsWith, findallWordRuns, findallRuns,
    MorphologicalAnalysisPipeline.classify, terminalToken]

/-- C1 amended: in the word loop of either pipeline, when the entry at the
cursor is not purely alphanumeric, the cursor advances by exactly one and
the entry now at the cursor is taken unconditionally as the analysis for
the current word — the skip is a single conditional step, not a loop — so a
run of two or more consecutive non-alphanumeric entries is not fully
skipped. -/
theorem claim_C1_amended (cl : MystemEntry → Except PyErr MorphologicalTokenDTO)
    (result : List MystemEntry) (w : PyStr) (ws : List PyStr) (i c : Nat)
    (e0 e1 : MystemEntry) (h0 : result.get? c = some e0)
    (hna : pyIsAlnum e0.text = false) (h1 : result.get? (c + 1) = some e1) :
    processWordsWith cl result (w :: ws) i c =
      match cl e1 with
      | Except.error e => Except.error e
      | Except.ok dto =>
        match processWordsWith cl result ws (i + 1) (c + 2) with
        | Except.error e => Except.error e
        | Except.ok (toks, c') =>
          Except.ok (⟨e1.text, dto, some i⟩ :: toks, c') := by
  conv_lhs => rw [processWordsWith]
  simp only [h0, hna, Bool.false_eq_true, if_false, h1]

theorem claim_C1_amended_witness :
    processWordsWith (MorphologicalAnalysisPipeline.classify tableEmpty)
      [⟨", ".data, none⟩, ⟨". ".data, none⟩] ["x".data] 1 0 =
      Except.ok ([⟨". ".data, ⟨". ".data, some ['X'], []⟩, some 1⟩], 2) := by
  rw [claim_C1_amended (MorphologicalAnalysisPipeline.classify tableEmpty)
    [⟨", ".data, none⟩, ⟨". ".data, none⟩] "x".data [] 1 0 _ _ rfl (by decide) rfl]
  rfl

/-- The total number of word tokens over all sentences of a document. -/
def totalWords (sentences : List PyStr) : Nat :=
  (sentences.map (fun s => (findallWordRuns s).length)).sum

theorem processWordsWith_ok_bounds {cl : MystemEntry → Except PyErr MorphologicalTokenDTO}
    {result : List MystemEntry} :
    ∀ {ws : List PyStr} {i c : Nat} {toks : List ConlluToken} {c' : Nat},
      processWordsWith cl result ws i c = Except.ok (toks, c') →
      c + ws.length ≤ c' ∧ (ws ≠ [] → c' ≤ result.length) := by
  intro ws
  induction ws with
  | nil =>
    intro i c toks c' h
    unfold processWordsWith at h
    simp only [Except.ok.injEq, Prod.mk.injEq] at h
    rcases h with ⟨h1, h2⟩
    subst h2
    exact ⟨by simp, fun hne => absurd rfl hne⟩
  | cons w ws ih =>
    intro i c toks c' h
    unfold processWordsWith at h
    cases h0 : result.get? c with
    | none => rw [h0] at h; exact absurd h (by simp)
    | some e0 =>
      rw [h0] at h
      dsimp only at h
      cases h1 : result.get? (if pyIsAlnum e0.text = true then c else c + 1) with
      | none => rw [h1] at h; exact absurd h (by simp)
      | some analyzed =>
        rw [h1] at h
        dsimp only at h
        cases h2 : cl analyzed with
        | error e => rw [h2] at h; exact absurd h (by simp)
        | ok dto =>
          rw [h2] at h
          dsimp only at h
          cases h3 : processWordsWith cl result ws (i + 1)
              ((if pyIsAlnum e0.text = true then c else c + 1) + 1) with
          | error e => rw [h3] at h; exact absurd h (by simp)
          | ok r =>
            rcases r with ⟨toks0, c0⟩
            rw [h3] at h
            dsimp only at h
            simp only [Except.ok.injEq, Prod.mk.injEq] at h
            have hc' : c0 = c' := h.2
            subst hc'
            have hlt1 : (if pyIsAlnum e0.text = true then c else c + 1) < result.length :=
              (List.get?_eq_some.mp h1).1
            rcases ih h3 with ⟨hle, hws⟩
            constructor
            · by_cases hal : pyIsAlnum e0.text = true <;> simp [hal] at hle ⊢ <;> omega
            · intro _
              rcases List.eq_nil_or_concat ws with rfl | ⟨ws0, w0, rfl⟩
              · unfold processWordsWith at h3
                simp only [Except.ok.injEq, Prod.mk.injEq] at h3
                rcases h3 with ⟨h31, h32⟩
                by_cases hal : pyIsAlnum e0.text = true
                · rw [if_pos hal] at h32 hlt1
                  omega
                · rw [if_neg hal] at h32 hlt1
                  omega
              · exact hws (by simp)

theorem processTextWith_ok_words_le {cl : MystemEntry → Except PyErr MorphologicalTokenDTO}
    {result : List MystemEntry} :
    ∀ {ss : List PyStr} {ind c : Nat} {out : List ConlluSentence},
      processTextWith cl result ss ind c = Except.ok out →
      c + totalWords ss ≤ result.length ∨ totalWords ss = 0 := by
  intro ss
  induction ss with
  | nil => intro ind c out _; right; rfl
  | cons s ss ih =>
    intro ind c out h
    unfold processTextWith at h
    cases h0 : processWordsWith cl result (findallWordRuns s) 1 c with
    | error e => rw [h0] at h; exact absurd h (by simp)
    | ok r =>
      rcases r with ⟨toks, c1⟩
      rw [h0] at h
      dsimp only at h
      cases h1 : processTextWith cl result ss (ind + 1) c1 with
      | error e => rw [h1] at h; exact absurd h (by simp)
      | ok rest =>
        rcases processWordsWith_ok_bounds h0 with ⟨hle, hne⟩
        have htw : totalWords (s :: ss) = (findallWordRuns s).length + totalWords ss := by
          simp [totalWords]
        rcases ih h1 with h2 | h2
        · left; omega
        · rcases Nat.eq_zero_or_pos (findallWordRuns s).length with hz | hpos
          · right; omega
          · left
            have : findallWordRuns s ≠ [] := by
              intro hnil
              rw [hnil] at hpos
              simp at hpos
            have := hne this
            omega

theorem processWordsWith_ok_or_index {cl : MystemEntry → Except PyErr MorphologicalTokenDTO}
    {result : List MystemEntry}
    (hcl : ∀ e ∈ result, ∃ dto, cl e = Except.ok dto) :
    ∀ (ws : List PyStr) (i c : Nat),
      (∃ r, processWordsWith cl result ws i c = Except.ok r) ∨
      processWordsWith cl result ws i c = Except.error PyErr.indexError := by
  intro ws
  induction ws with
  | nil => intro i c; exact Or.inl ⟨([], c), rfl⟩
  | cons w ws ih =>
    intro i c
    unfold processWordsWith
    cases h0 : result.get? c with
    | none => exact Or.inr rfl
    | some e0 =>
      dsimp only
      cases h1 : result.get? (if pyIsAlnum e0.text = true then c else c + 1) with
      | none => exact Or.inr rfl
      | some analyzed =>
        dsimp only
        rcases hcl analyzed (List.get?_mem h1) with ⟨dto, hdto⟩
        rw [hdto]
        dsimp only
        rcases ih (i + 1) ((if pyIsAlnum e0.text = true then c else c + 1) + 1) with
          ⟨⟨toks, c'⟩, hok⟩ | herr
        · rw [hok]
          exact Or.inl ⟨_, rfl⟩
        · rw [herr]
          exact Or.inr rfl

theorem processTextWith_ok_or_index {cl : MystemEntry → Except PyErr MorphologicalTokenDTO}
    {result : List MystemEntry}
    (hcl : ∀ e ∈ result, ∃ dto, cl e = Except.ok dto) :
    ∀ (ss : List PyStr) (ind c : Nat),
      (∃ out, processTextWith cl result ss ind c = Except.ok out) ∨
      processTextWith cl result ss ind c = Except.error PyErr.indexError := by
  intro ss
  induction ss with
  | nil => intro ind c; exact Or.inl ⟨[], rfl⟩
  | cons s ss ih =>
    intro ind c
    unfold processTextWith
    rcases processWordsWith_ok_or_index hcl (findallWordRuns s) 1 c with ⟨⟨toks, c1⟩, hok⟩ | herr
    · rw [hok]
      dsimp only
      rcases ih (ind + 1) c1 with ⟨out, hok2⟩ | herr2
      · rw [hok2]
        exact Or.inl ⟨_, rfl⟩
      · rw [herr2]
        exact Or.inr rfl
    · rw [herr]
      exact Or.inr rfl

/-- C2: when the flat analyzer-entry stream is shorter than the total number
of words of the document's sentences (so the stream must be exhausted before
every word is assigned an entry), `_process` fails with the out-of-range
stream access — the Python `IndexError`, the failure the spec names
`AlignmentExhaustedError` — and, the failure being a raised exception, no
partial sentence is emitted (the `Except.error` result carries no sentence
list).  The entries are assumed classifiable so that no tag-conversion
failure pre-empts the exhaustion. -/
theorem claim_C2 (m : TagMap) (sentences : List PyStr) (result : List MystemEntry)
    (hcl : ∀ e ∈ result, ∃ dto, MorphologicalAnalysisPipeline.classify m e = Except.ok dto)
    (hlen : result.length < totalWords sentences) :
    MorphologicalAnalysisPipeline.process m sentences result =
      Except.error PyErr.indexError := by
  unfold MorphologicalAnalysisPipeline.process
  rcases processTextWith_ok_or_index hcl sentences 0 0 with ⟨out, hok⟩ | herr
  · rcases processTextWith_ok_words_le hok with h | h <;> omega
  · exact herr

theorem claim_C2_witness :
    MorphologicalAnalysisPipeline.process tableEmpty ["ab cd ef".data]
      [⟨"ab".data, none⟩, ⟨"cd".data, none⟩] = Except.error PyErr.indexError := by
  refine claim_C2 tableEmpty _ _ ?_ ?_
  · intro e he
    rcases List.mem_cons.mp he with rfl | he1
    · exact ⟨_, rfl⟩
    · rcases List.mem_cons.mp he1 with rfl | he2
      · exact ⟨_, rfl⟩
      · exact absurd he2 (List.not_mem_nil e)
  · simp +decide [totalWords, findallWordRuns, findallRuns]

/-- C3: in the advanced pipeline's per-entry classification, for a taken
entry carrying at least one candidate analysis: when the primary converter's
part-of-speech equals `'NOUN'`, the emitted lemma, part-of-speech and
features are those of the fallback analyzer's first candidate converted by
the fallback (OpenCorpora) converter — independently of the primary
analyzer's lemma `a.lex` — while for every other converted part-of-speech
the primary analyzer's lemma, part-of-speech and Mystem-converted features
are kept unchanged. -/
theorem claim_C3 (m bm : TagMap) (backup : PyStr → List ParseResult)
    (e : MystemEntry) (a : Analysis) (rest : List Analysis)
    (hA : e.analysis = some (a :: rest)) :
    (∀ (p : ParseResult) (ps : List ParseResult) (pos2 : Option PyStr) (tags2 : PyStr),
      MystemTagConverter.convert_pos m a.gr = Except.ok "NOUN".data →
      backup e.text = p :: ps →
      OpenCorporaTagConverter.convert_pos bm p.tag = Except.ok pos2 →
      OpenCorporaTagConverter.convert_morphological_tags bm p.tag = Except.ok tags2 →
      AdvancedMorphologicalAnalysisPipeline.classify m bm backup e =
        Except.ok ⟨p.normal_form, pos2, tags2⟩) ∧
    (∀ q : PyStr,
      MystemTagConverter.convert_pos m a.gr = Except.ok q →
      q ≠ "NOUN".data →
      AdvancedMorphologicalAnalysisPipeline.classify m bm backup e =
        Except.ok ⟨a.lex, some q,
          MystemTagConverter.convert_morphological_tags m a.gr⟩) := by
  constructor
  · intro p ps pos2 tags2 hN hB hP hT
    unfold AdvancedMorphologicalAnalysisPipeline.classify
    rw [hA]
    dsimp only
    rw [hN]
    dsimp only
    rw [if_pos rfl, hB]
    dsimp only [List.get?]
    rw [hP]
    dsimp only
    rw [hT]
  · intro q hq hne
    unfold AdvancedMorphologicalAnalysisPipeline.classify
    rw [hA]
    dsimp only
    rw [hq]
    dsimp only
    rw [if_neg hne]

/-- Concrete fallback analyzer used by the C3 witness: a single candidate
with its own lemma and a fully populated OpenCorpora tag. -/
def backupW : PyStr → List ParseResult := fun _ =>
  [⟨"кошка".data, { POS := some "NOUN2".data, case := some "nomn".data }⟩]

/-- Concrete mapping table used by the C3 witness: `S` converts to `NOUN`. -/
def tableW : TagMap := fun c t =>
  match c with
  | Category.pos => if t = "S".data then some "NOUN".data else some t
  | _ => some t

theorem claim_C3_witness :
    (AdvancedMorphologicalAnalysisPipeline.classify tableW tableId backupW
      ⟨"кот".data, some [⟨"кот".data, "S,муж".data⟩]⟩ =
      Except.ok ⟨"кошка".data, some "NOUN2".data,
        renderPairs [(Category.case, "nomn".data)]⟩) ∧
    (AdvancedMorphologicalAnalysisPipeline.classify tableW tableId backupW
      ⟨"идет".data, some [⟨"идти".data, "V,несов".data⟩]⟩ =
      Except.ok ⟨"идти".data, some "V".data,
        MystemTagConverter.convert_morphological_tags tableW "V,несов".data⟩) := by
  constructor
  · exact (claim_C3 tableW tableId backupW
      ⟨"кот".data, some [⟨"кот".data, "S,муж".data⟩]⟩ ⟨"кот".data, "S,муж".data⟩ [] rfl).1
      ⟨"кошка".data, { POS := some "NOUN2".data, case := some "nomn".data }⟩ []
      (some "NOUN2".data) (renderPairs [(Category.case, "nomn".data)])
      (by rfl) rfl (by rfl) (by rfl)
  · exact (claim_C3 tableW tableId backupW
      ⟨"идет".data, some [⟨"идти".data, "V,несов".data⟩]⟩ ⟨"идти".data, "V,несов".data⟩ []
      rfl).2 "V".data (by rfl) (by decide)

theorem range'_one_concat (n : Nat) :
    List.range' 1 (n + 1) = List.range' 1 n ++ [n + 1] := by
  have h := @List.range'_concat 1 1 n
  simpa [Nat.add_comm] using h

theorem processWordsWith_positions {cl : MystemEntry → Except PyErr MorphologicalTokenDTO}
    {result : List MystemEntry} :
    ∀ {ws : List PyStr} {i c : Nat} {toks : List ConlluToken} {c' : Nat},
      processWordsWith cl result ws i c = Except.ok (toks, c') →
      toks.map ConlluToken.position = (List.range' i ws.length).map some := by
  intro ws
  induction ws with
  | nil =>
    intro i c toks c' h
    unfold processWordsWith at h
    simp only [Except.ok.injEq, Prod.mk.injEq] at h
    rw [← h.1]
    rfl
  | cons w ws ih =>
    intro i c toks c' h
    unfold processWordsWith at h
    cases h0 : result.get? c with
    | none => rw [h0] at h; exact absurd h (by simp)
    | some e0 =>
      rw [h0] at h
      dsimp only at h
      cases h1 : result.get? (if pyIsAlnum e0.text = true then c else c + 1) with
      | none => rw [h1] at h; exact absurd h (by simp)
      | some analyzed =>
        rw [h1] at h
        dsimp only at h
        cases h2 : cl analyzed with
        | error e => rw [h2] at h; exact absurd h (by simp)
        | ok dto =>
          rw [h2] at h
          dsimp only at h
          cases h3 : processWordsWith cl result ws (i + 1)
              ((if pyIsAlnum e0.text = true then c else c + 1) + 1) with
          | error e => rw [h3] at h; exact absurd h (by simp)
          | ok r =>
            rcases r with ⟨toks0, c0⟩
            rw [h3] at h
            dsimp only at h
            simp only [Except.ok.injEq, Prod.mk.injEq] at h
            rw [← h.1]
            simp only [List.map_cons, List.length_cons, List.range'_succ]
            rw [ih h3]

theorem processTextWith_sentence_shape
    {cl : MystemEntry → Except PyErr MorphologicalTokenDTO}
    {result : List MystemEntry} :
    ∀ {ss : List PyStr} {ind c : Nat} {out : List ConlluSentence},
      processTextWith cl result ss ind c = Except.ok out →
      ∀ sent ∈ out,
        sent.tokens.map ConlluToken.position =
          (List.range' 1 ((findallWordRuns sent.text).length + 1)).map some ∧
        sent.tokens.getLast? = some ⟨['.'], ⟨['.'], some "PUNCT".data, []⟩,
          some ((findallWordRuns sent.text).length + 1)⟩ := by
  intro ss
  induction ss with
  | nil =>
    intro ind c out h sent hmem
    unfold processTextWith at h
    simp only [Except.ok.injEq] at h
    rw [← h] at hmem
    exact absurd hmem (List.not_mem_nil sent)
  | cons s ss ih =>
    intro ind c out h sent hmem
    unfold processTextWith at h
    cases h0 : processWordsWith cl result (findallWordRuns s) 1 c with
    | error e => rw [h0] at h; exact absurd h (by simp)
    | ok r =>
      rcases r with ⟨toks, c1⟩
      rw [h0] at h
      dsimp only at h
      cases h1 : processTextWith cl result ss (ind + 1) c1 with
      | error e => rw [h1] at h; exact absurd h (by simp)
      | ok rest =>
        rw [h1] at h
        dsimp only at h
        simp only [Except.ok.injEq] at h
        rw [← h] at hmem
        rcases List.mem_cons.mp hmem with rfl | hmem'
        · constructor
          · show (toks ++ [terminalToken (findallWordRuns s).length]).map
                ConlluToken.position = _
            rw [List.map_append, processWordsWith_positions h0, range'_one_concat,
              List.map_append]
            rfl
          · exact List.getLast?_concat toks
        · exact ih h1 sent hmem'

/-- C7: for every sentence emitted by either pipeline, the token positions
are exactly `1 .. word_count + 1` (strictly increasing, gap-free), where
`word_count` is the number of `\w+` word tokens of the sentence's text, and
the final token is the synthetic terminal token with surface form `"."`,
lemma `"."`, part-of-speech `PUNCT`, empty features and position
`word_count + 1`. -/
theorem claim_C7 :
    (∀ (m : TagMap) (sentences : List PyStr) (result : List MystemEntry)
      (out : List ConlluSentence),
      MorphologicalAnalysisPipeline.process m sentences result = Except.ok out →
      ∀ sent ∈ out,
        sent.tokens.map ConlluToken.position =
          (List.range' 1 ((findallWordRuns sent.text).length + 1)).map some ∧
        sent.tokens.getLast? = some ⟨['.'], ⟨['.'], some "PUNCT".data, []⟩,
          some ((findallWordRuns sent.text).length + 1)⟩) ∧
    (∀ (m bm : TagMap) (backup : PyStr → List ParseResult)
      (sentences : List PyStr) (result : List MystemEntry)
      (out : List ConlluSentence),
      AdvancedMorphologicalAnalysisPipeline.process m bm backup sentences result =
        Except.ok out →
      ∀ sent ∈ out,
        sent.tokens.map ConlluToken.position =
          (List.range' 1 ((findallWordRuns sent.text).length + 1)).map some ∧
        sent.tokens.getLast? = some ⟨['.'], ⟨['.'], some "PUNCT".data, []⟩,
          some ((findallWordRuns sent.text).length + 1)⟩) :=
  ⟨fun _ _ _ _ h => processTextWith_sentence_shape h,
   fun _ _ _ _ _ _ h => processTextWith_sentence_shape h⟩

theorem claim_C7_witness :
    ((⟨0, "ab".data, [⟨"ab".data, ⟨"ab".data, some ['X'], []⟩, some 1⟩,
        ⟨['.'], ⟨['.'], some "PUNCT".data, []⟩, some 2⟩]⟩ : ConlluSentence).tokens.map
      ConlluToken.position =
      (List.range' 1 ((findallWordRuns "ab".data).length + 1)).map some ∧
    (⟨0, "ab".data, [⟨"ab".data, ⟨"ab".data, some ['X'], []⟩, some 1⟩,
        ⟨['.'], ⟨['.'], some "PUNCT".data, []⟩, some 2⟩]⟩ : ConlluSentence).tokens.getLast? =
      some ⟨['.'], ⟨['.'], some "PUNCT".data, []⟩,
        some ((findallWordRuns "ab".data).length + 1)⟩) ∧
    ((⟨0, "cd".data, [⟨"cd".data, ⟨"cd".data, some ['X'], []⟩, some 1⟩,
        ⟨['.'], ⟨['.'], some "PUNCT".data, []⟩, some 2⟩]⟩ : ConlluSentence).tokens.map
      ConlluToken.position =
      (List.range' 1 ((findallWordRuns "cd".data).length + 1)).map some ∧
    (⟨0, "cd".data, [⟨"cd".data, ⟨"cd".data, some ['X'], []⟩, some 1⟩,
        ⟨['.'], ⟨['.'], some "PUNCT".data, []⟩, some 2⟩]⟩ : ConlluSentence).tokens.getLast? =
      some ⟨['.'], ⟨['.'], some "PUNCT".data, []⟩,
        some ((findallWordRuns "cd".data).length + 1)⟩) :=
  ⟨claim_C7.1 tableEmpty ["ab".data] [⟨"ab".data, none⟩] _
    (by simp +decide [MorphologicalAnalysisPipeline.process, processTextWith,
      processWordsWith, findallWordRuns, findallRuns,
      MorphologicalAnalysisPipeline.classify])
    _ (List.mem_singleton.mpr rfl),
   claim_C7.2 tableEmpty tableEmpty (fun _ => []) ["cd".data] [⟨"cd".data, none⟩] _
    (by simp +decide [AdvancedMorphologicalAnalysisPipeline.process, processTextWith,
      processWordsWith, findallWordRuns, findallRuns,
      AdvancedMorphologicalAnalysisPipeline.classify])
    _ (List.mem_singleton.mpr rfl)⟩

theorem processWordsWith_token_morph
    {cl : MystemEntry → Except PyErr MorphologicalTokenDTO}
    {result : List MystemEntry} :
    ∀ {ws : List PyStr} {i c : Nat} {toks : List ConlluToken} {c' : Nat},
      processWordsWith cl result ws i c = Except.ok (toks, c') →
      ∀ tok ∈ toks, ∃ e dto, cl e = Except.ok dto ∧
        tok.morphological_parameters = dto := by
  intro ws
  induction ws with
  | nil =>
    intro i c toks c' h tok htok
    unfold processWordsWith at h
    simp only [Except.ok.injEq, Prod.mk.injEq] at h
    rw [← h.1] at htok
    exact absurd htok (List.not_mem_nil tok)
  | cons w ws ih =>
    intro i c toks c' h tok htok
    unfold processWordsWith at h
    cases h0 : result.get? c with
    | none => rw [h0] at h; exact absurd h (by simp)
    | some e0 =>
      rw [h0] at h
      dsimp only at h
      cases h1 : result.get? (if pyIsAlnum e0.text = true then c else c + 1) with
      | none => rw [h1] at h; exact absurd h (by simp)
      | some analyzed =>
        rw [h1] at h
        dsimp only at h
        cases h2 : cl analyzed with
        | error e => rw [h2] at h; exact absurd h (by simp)
        | ok dto =>
          rw [h2] at h
          dsimp only at h
          cases h3 : processWordsWith cl result ws (i + 1)
              ((if pyIsAlnum e0.text = true then c else c + 1) + 1) with
          | error e => rw [h3] at h; exact absurd h (by simp)
          | ok r =>
            rcases r with ⟨toks0, c0⟩
            rw [h3] at h
            dsimp only at h
            simp only [Except.ok.injEq, Prod.mk.injEq] at h
            rw [← h.1] at htok
            rcases List.mem_cons.mp htok with rfl | htok'
            · exact ⟨analyzed, dto, h2, rfl⟩
            · exact ih h3 tok htok'

theorem processTextWith_token_morph
    {cl : MystemEntry → Except PyErr MorphologicalTokenDTO}
    {result : List MystemEntry} :
    ∀ {ss : List PyStr} {ind c : Nat} {out : List ConlluSentence},
      processTextWith cl result ss ind c = Except.ok out →
      ∀ sent ∈ out, ∀ tok ∈ sent.tokens,
        (∃ e dto, cl e = Except.ok dto ∧ tok.morphological_parameters = dto) ∨
        tok.morphological_parameters = ⟨['.'], some "PUNCT".data, []⟩ := by
  intro ss
  induction ss with
  | nil =>
    intro ind c out h sent hmem
    unfold processTextWith at h
    simp only [Except.ok.injEq] at h
    rw [← h] at hmem
    exact absurd hmem (List.not_mem_nil sent)
  | cons s ss ih =>
    intro ind c out h sent hmem tok htok
    unfold processTextWith at h
    cases h0 : processWordsWith cl result (findallWordRuns s) 1 c with
    | error e => rw [h0] at h; exact absurd h (by simp)
    | ok r =>
      rcases r with ⟨toks, c1⟩
      rw [h0] at h
      dsimp only at h
      cases h1 : processTextWith cl result ss (ind + 1) c1 with
      | error e => rw [h1] at h; exact absurd h (by simp)
      | ok rest =>
        rw [h1] at h
        dsimp only at h
        simp only [Except.ok.injEq] at h
        rw [← h] at hmem
        rcases List.mem_cons.mp hmem with rfl | hmem'
        · rcases List.mem_append.mp htok with htok1 | htok2
          · exact Or.inl (processWordsWith_token_morph h0 tok htok1)
          · simp only [List.mem_singleton] at htok2
            subst htok2
            exact Or.inr rfl
        · exact ih h1 sent hmem' tok htok

/-- The part-of-speech values registered in a mapping table's `pos` category
are non-empty strings (the spec's "fixed tag vocabulary"); the repository's
mapping data files satisfy this. -/
def PosValuesNonempty (m : TagMap) : Prop :=
  ∀ raw v, m Category.pos raw = some v → v ≠ []

theorem mystem_convert_pos_shape {m : TagMap} {g v : PyStr}
    (h : MystemTagConverter.convert_pos m g = Except.ok v) :
    ∃ raw, m Category.pos raw = some v := by
  unfold MystemTagConverter.convert_pos at h
  cases hlw : leadingWordRun g with
  | nil => rw [hlw] at h; exact absurd h (by simp)
  | cons a as =>
    rw [hlw] at h
    dsimp only at h
    cases hm : m Category.pos (a :: as) with
    | none => rw [hm] at h; exact absurd h (by simp)
    | some u =>
      rw [hm] at h
      simp only [Except.ok.injEq] at h
      exact ⟨a :: as, h ▸ hm⟩

theorem oc_convert_pos_shape {m : TagMap} {t : OpencorporaTag} {pos2 : Option PyStr}
    (h : OpenCorporaTagConverter.convert_pos m t = Except.ok pos2) :
    pos2 = none ∨ ∃ raw v, pos2 = some v ∧ m Category.pos raw = some v := by
  unfold OpenCorporaTagConverter.convert_pos at h
  cases ht : t.POS with
  | none =>
    rw [ht] at h
    simp only [Except.ok.injEq] at h
    exact Or.inl h.symm
  | some p =>
    rw [ht] at h
    dsimp only at h
    cases hm : m Category.pos p with
    | none => rw [hm] at h; exact absurd h (by simp)
    | some u =>
      rw [hm] at h
      simp only [Except.ok.injEq] at h
      exact Or.inr ⟨p, u, h.symm, hm⟩

theorem classify_pos_shape {m : TagMap} (hm : PosValuesNonempty m)
    {e : MystemEntry} {dto : MorphologicalTokenDTO}
    (h : MorphologicalAnalysisPipeline.classify m e = Except.ok dto) :
    ∃ p, dto.pos = some p ∧ p ≠ [] := by
  unfold MorphologicalAnalysisPipeline.classify at h
  cases hA : e.analysis with
  | none =>
    rw [hA] at h
    dsimp only at h
    split at h <;> simp only [Except.ok.injEq] at h <;> rw [← h] <;>
      exact ⟨_, rfl, by decide⟩
  | some l =>
    cases l with
    | nil =>
      rw [hA] at h
      dsimp only at h
      split at h <;> simp only [Except.ok.injEq] at h <;> rw [← h] <;>
        exact ⟨_, rfl, by decide⟩
    | cons a rest =>
      rw [hA] at h
      dsimp only at h
      cases h2 : MystemTagConverter.convert_pos m a.gr with
      | error err => rw [h2] at h; exact absurd h (by simp)
      | ok pos =>
        rw [h2] at h
        simp only [Except.ok.injEq] at h
        rcases mystem_convert_pos_shape h2 with ⟨raw, hraw⟩
        exact ⟨pos, by rw [← h], hm raw pos hraw⟩

theorem classify_advanced_pos_shape {m bm : TagMap} (hm : PosValuesNonempty m)
    (hbm : PosValuesNonempty bm) {backup : PyStr → List ParseResult}
    {e : MystemEntry} {dto : MorphologicalTokenDTO}
    (h : AdvancedMorphologicalAnalysisPipeline.classify m bm backup e = Except.ok dto) :
    dto.pos = none ∨ ∃ p, dto.pos = some p ∧ p ≠ [] := by
  unfold AdvancedMorphologicalAnalysisPipeline.classify at h
  cases hA : e.analysis with
  | none =>
    rw [hA] at h
    dsimp only at h
    split at h <;> simp only [Except.ok.injEq] at h <;> rw [← h] <;>
      exact Or.inr ⟨_, rfl, by decide⟩
  | some l =>
    cases l with
    | nil =>
      rw [hA] at h
      dsimp only at h
      split at h <;> simp only [Except.ok.injEq] at h <;> rw [← h] <;>
        exact Or.inr ⟨_, rfl, by decide⟩
    | cons a rest =>
      rw [hA] at h
      dsimp only at h
      cases h2 : MystemTagConverter.convert_pos m a.gr with
      | error err => rw [h2] at h; exact absurd h (by simp)
      | ok pos =>
        rw [h2] at h
        dsimp only at h
        by_cases hnoun : pos = "NOUN".data
        · rw [if_pos hnoun] at h
          cases h3 : (backup e.text).get? 0 with
          | none => rw [h3] at h; exact absurd h (by simp)
          | some p =>
            rw [h3] at h
            dsimp only at h
            cases h4 : OpenCorporaTagConverter.convert_pos bm p.tag with
            | error err => rw [h4] at h; exact absurd h (by simp)
            | ok pos2 =>
              rw [h4] at h
              dsimp only at h
              cases h5 : OpenCorporaTagConverter.convert_morphological_tags bm p.tag with
              | error err => rw [h5] at h; exact absurd h (by simp)
              | ok tags2 =>
                rw [h5] at h
                simp only [Except.ok.injEq] at h
                rcases oc_convert_pos_shape h4 with hnone | ⟨raw, v, hv, hraw⟩
                · left; rw [← h, hnone]
                · right
                  exact ⟨v, by rw [← h, hv], hbm raw v hraw⟩
        · rw [if_neg hnoun] at h
          simp only [Except.ok.injEq] at h
          rcases mystem_convert_pos_shape h2 with ⟨raw, hraw⟩
          exact Or.inr ⟨pos, by rw [← h], hm raw pos hraw⟩

theorem tokens_rendered_pos_ok
    {cl : MystemEntry → Except PyErr MorphologicalTokenDTO}
    {result : List MystemEntry}
    (hshape : ∀ e dto, cl e = Except.ok dto →
      dto.pos = none ∨ ∃ p, dto.pos = some p ∧ p ≠ [])
    {ss : List PyStr} {ind c : Nat} {out : List ConlluSentence}
    (h : processTextWith cl result ss ind c = Except.ok out) :
    ∀ sent ∈ out, ∀ tok ∈ sent.tokens,
      tok.rendered_pos ≠ [] ∧
      (tok.morphological_parameters.pos = none → tok.rendered_pos = ['X']) := by
  intro sent hs tok ht
  rcases processTextWith_token_morph h sent hs tok ht with ⟨e, dto, hcl, hmorph⟩ | hterm
  · rcases hshape e dto hcl with hnone | ⟨p, hsome, hne⟩
    · unfold ConlluToken.rendered_pos
      rw [hmorph, hnone]
      exact ⟨by decide, fun _ => rfl⟩
    · unfold ConlluToken.rendered_pos
      rw [hmorph, hsome]
      exact ⟨hne, fun hc => absurd hc (by simp)⟩
  · unfold ConlluToken.rendered_pos
    rw [hterm]
    exact ⟨by decide, fun hc => absurd hc (by simp)⟩

/-- C5: for every token emitted by either pipeline (with mapping tables
whose part-of-speech values are non-empty, as the repository's data files
are), the rendered part-of-speech field of the 10-field tab-separated record
is never empty, and whenever the stored part-of-speech is unset (the Python
`None`, which the advanced pipeline stores when the fallback analyzer
supplies no POS) the record carries the fallback value `"X"`; the record is
the fixed 10-field join for every value of the feature-inclusion flag. -/
theorem claim_C5 :
    (∀ (m : TagMap) (sentences : List PyStr) (result : List MystemEntry)
       (out : List ConlluSentence), PosValuesNonempty m →
      MorphologicalAnalysisPipeline.process m sentences result = Except.ok out →
      ∀ sent ∈ out, ∀ tok ∈ sent.tokens, ∀ flag : Bool,
        tok.rendered_pos ≠ [] ∧
        (tok.morphological_parameters.pos = none → tok.rendered_pos = ['X']) ∧
        tok.get_conllu_text flag =
          joinSep ['\t'] [positionText tok.position, tok.text,
            tok.morphological_parameters.lemma', tok.rendered_pos, ['_'],
            tok.rendered_feats flag, ['0'], "root".data, ['_'], ['_']]) ∧
    (∀ (m bm : TagMap) (backup : PyStr → List ParseResult)
       (sentences : List PyStr) (result : List MystemEntry)
       (out : List ConlluSentence), PosValuesNonempty m → PosValuesNonempty bm →
      AdvancedMorphologicalAnalysisPipeline.process m bm backup sentences result =
        Except.ok out →
      ∀ sent ∈ out, ∀ tok ∈ sent.tokens, ∀ flag : Bool,
        tok.rendered_pos ≠ [] ∧
        (tok.morphological_parameters.pos = none → tok.rendered_pos = ['X']) ∧
        tok.get_conllu_text flag =
          joinSep ['\t'] [positionText tok.position, tok.text,
            tok.morphological_parameters.lemma', tok.rendered_pos, ['_'],
            tok.rendered_feats flag, ['0'], "root".data, ['_'], ['_']]) := by
  constructor
  · intro m sentences result out hm hproc sent hs tok ht flag
    have hp := tokens_rendered_pos_ok
      (fun e dto hcl => Or.inr (classify_pos_shape hm hcl)) hproc sent hs tok ht
    exact ⟨hp.1, hp.2, rfl⟩
  · intro m bm backup sentences result out hm hbm hproc sent hs tok ht flag
    have hp := tokens_rendered_pos_ok
      (fun e dto hcl => classify_advanced_pos_shape hm hbm hcl) hproc sent hs tok ht
    exact ⟨hp.1, hp.2, rfl⟩

theorem claim_C5_witness :
    ((⟨"ab".data, ⟨"ab".data, some ['X'], []⟩, some 1⟩ : ConlluToken).rendered_pos ≠ [] ∧
     ((⟨"ab".data, ⟨"ab".data, some ['X'], []⟩, some 1⟩ :
        ConlluToken).morphological_parameters.pos = none →
      (⟨"ab".data, ⟨"ab".data, some ['X'], []⟩, some 1⟩ : ConlluToken).rendered_pos = ['X']) ∧
     (⟨"ab".data, ⟨"ab".data, some ['X'], []⟩, some 1⟩ : ConlluToken).get_conllu_text true =
       joinSep ['\t'] [positionText (some 1), "ab".data, "ab".data, ['X'], ['_'],
         ['_'], ['0'], "root".data, ['_'], ['_']]) ∧
    ((⟨"cd".data, ⟨"cd".data, some ['X'], []⟩, some 1⟩ : ConlluToken).rendered_pos ≠ [] ∧
     ((⟨"cd".data, ⟨"cd".data, some ['X'], []⟩, some 1⟩ :
        ConlluToken).morphological_parameters.pos = none →
      (⟨"cd".data, ⟨"cd".data, some ['X'], []⟩, some 1⟩ : ConlluToken).rendered_pos = ['X']) ∧
     (⟨"cd".data, ⟨"cd".data, some ['X'], []⟩, some 1⟩ : ConlluToken).get_conllu_text false =
       joinSep ['\t'] [positionText (some 1), "cd".data, "cd".data, ['X'], ['_'],
         ['_'], ['0'], "root".data, ['_'], ['_']]) :=
  ⟨claim_C5.1 tableEmpty ["ab".data] [⟨"ab".data, none⟩]
    [⟨0, "ab".data, [⟨"ab".data, ⟨"ab".data, some ['X'], []⟩, some 1⟩, terminalToken 1]⟩]
    (fun raw v h => absurd h (by simp [tableEmpty]))
    (by simp +decide [MorphologicalAnalysisPipeline.process, processTextWith,
      processWordsWith, findallWordRuns, findallRuns,
      MorphologicalAnalysisPipeline.classify])
    _ (List.mem_singleton.mpr rfl) _ (List.mem_cons_self _ _) true,
   claim_C5.2 tableEmpty tableEmpty (fun _ => []) ["cd".data] [⟨"cd".data, none⟩]
    [⟨0, "cd".data, [⟨"cd".data, ⟨"cd".data, some ['X'], []⟩, some 1⟩, terminalToken 1]⟩]
    (fun raw v h => absurd h (by simp [tableEmpty]))
    (fun raw v h => absurd h (by simp [tableEmpty]))
    (by simp +decide [AdvancedMorphologicalAnalysisPipeline.process, processTextWith,
      processWordsWith, findallWordRuns, findallRuns,
      AdvancedMorphologicalAnalysisPipeline.classify])
    _ (List.mem_singleton.mpr rfl) _ (List.mem_cons_self _ _) false⟩

/-- Two adjacent whitespace characters occur somewhere in the string. -/
def adjWs : PyStr → Bool
  | a :: b :: rest => (pyIsSpace a && pyIsSpace b) || adjWs (b :: rest)
  | _ => false

theorem adjWs_cons_cons {a b : Char} {l : PyStr} :
    adjWs (a :: b :: l) = ((pyIsSpace a && pyIsSpace b) || adjWs (b :: l)) := rfl

theorem adjWs_tail {c : Char} {l : PyStr} (h : adjWs (c :: l) = false) :
    adjWs l = false := by
  cases l with
  | nil => rfl
  | cons b bs =>
    rw [adjWs_cons_cons, Bool.or_eq_false_iff] at h
    exact h.2

theorem adjWs_append_right {l₂ : PyStr} :
    ∀ {l₁ : PyStr}, adjWs (l₁ ++ l₂) = false → adjWs l₂ = false := by
  intro l₁
  induction l₁ with
  | nil => exact id
  | cons a l₁ ih => exact fun h => ih (adjWs_tail h)

theorem adjWs_append_left :
    ∀ {l₁ l₂ : PyStr}, adjWs (l₁ ++ l₂) = false → adjWs l₁ = false := by
  intro l₁
  induction l₁ with
  | nil => intro l₂ _; rfl
  | cons a l₁ ih =>
    intro l₂ h
    cases l₁ with
    | nil => rfl
    | cons b l₁' =>
      rw [List.cons_append, List.cons_append, adjWs_cons_cons,
        Bool.or_eq_false_iff] at h
      rw [adjWs_cons_cons, Bool.or_eq_false_iff]
      exact ⟨h.1, ih (by rw [List.cons_append]; exact h.2)⟩

theorem dropWhile_head_neg {p : Char → Bool} :
    ∀ {l r : PyStr} {c : Char}, l.dropWhile p = c :: r → p c = false := by
  intro l
  induction l with
  | nil => intro r c h; exact absurd h (by simp)
  | cons a as ih =>
    intro r c h
    rw [List.dropWhile_cons] at h
    split at h
    · exact ih h
    · rename_i hp
      rcases List.cons.inj h with ⟨rfl, rfl⟩
      simpa using hp

theorem takeWhile_all_append {p : Char → Bool} :
    ∀ {l₁ : PyStr} (l₂ : PyStr), (∀ x ∈ l₁, p x = true) →
      (l₁ ++ l₂).takeWhile p = l₁ ++ l₂.takeWhile p := by
  intro l₁
  induction l₁ with
  | nil => intro l₂ _; rfl
  | cons a l₁ ih =>
    intro l₂ h
    rw [List.cons_append, List.takeWhile_cons,
      if_pos (h a (List.mem_cons_self a l₁)), ih l₂ (fun x hx => h x (List.mem_cons_of_mem a hx))]
    rfl

/-- Decomposition of right-stripping: a list is its right-strip followed by a
run of stripped characters. -/
theorem rstrip_decomp (p : Char → Bool) (l : PyStr) :
    l = (l.reverse.dropWhile p).reverse ++ (l.reverse.takeWhile p).reverse ∧
    ∀ x ∈ (l.reverse.takeWhile p).reverse, p x = true := by
  constructor
  · conv_lhs => rw [← l.reverse_reverse,
      ← List.takeWhile_append_dropWhile p l.reverse]
    rw [List.reverse_append]
  · intro x hx
    exact List.mem_takeWhile_imp (List.mem_reverse.mp hx)

theorem mem_joinSep_space {x : Char} :
    ∀ {ts : List PyStr}, x ∈ joinSep [' '] ts → (∃ t ∈ ts, x ∈ t) ∨ x = ' ' := by
  intro ts
  induction ts with
  | nil => intro h; exact absurd h (List.not_mem_nil x)
  | cons t ts ih =>
    intro h
    cases ts with
    | nil =>
      exact Or.inl ⟨t, List.mem_cons_self _ _, h⟩
    | cons t2 ts2 =>
      rcases List.mem_append.mp h with h1 | h2
      · rcases List.mem_append.mp h1 with h3 | h4
        · exact Or.inl ⟨t, List.mem_cons_self _ _, h3⟩
        · simp only [List.mem_singleton] at h4
          exact Or.inr h4
      · rcases ih h2 with ⟨u, hu, hx⟩ | hsp
        · exact Or.inl ⟨u, List.mem_cons_of_mem t hu, hx⟩
        · exact Or.inr hsp

theorem mem_squeezeWs {x : Char} :
    ∀ {s : PyStr}, x ∈ squeezeWs s → x ∈ s ∨ x = ' ' := by
  intro s
  induction s using squeezeWs.induct with
  | case1 => intro h; exact absurd h (by simp [squeezeWs])
  | case2 c cs hws ih =>
    intro h
    rw [squeezeWs, if_pos hws] at h
    rcases List.mem_cons.mp h with rfl | h2
    · exact Or.inr rfl
    · rcases ih h2 with h3 | h3
      · exact Or.inl (List.mem_cons_of_mem c ((List.dropWhile_sublist pyIsSpace).subset h3))
      · exact Or.inr h3
  | case3 c cs hws ih =>
    intro h
    rw [squeezeWs, if_neg hws] at h
    rcases List.mem_cons.mp h with rfl | h2
    · exact Or.inl (List.mem_cons_self _ _)
    · rcases ih h2 with h3 | h3
      · exact Or.inl (List.mem_cons_of_mem c h3)
      · exact Or.inr h3

theorem mem_pyStrip {x : Char} {s : PyStr} (h : x ∈ pyStrip s) : x ∈ s := by
  unfold pyStrip at h
  have h1 := (List.dropWhile_sublist pyIsSpace).subset (List.mem_reverse.mp h)
  have h2 := (List.dropWhile_sublist pyIsSpace).subset (List.mem_reverse.mp h1)
  exact h2

theorem onlySp_squeezeWs {x : Char} :
    ∀ {s : PyStr}, x ∈ squeezeWs s → pyIsSpace x = true → x = ' ' := by
  intro s
  induction s using squeezeWs.induct with
  | case1 => intro h _; exact absurd h (by simp [squeezeWs])
  | case2 c cs hws ih =>
    intro h hx
    rw [squeezeWs, if_pos hws] at h
    rcases List.mem_cons.mp h with rfl | h2
    · rfl
    · exact ih h2 hx
  | case3 c cs hws ih =>
    intro h hx
    rw [squeezeWs, if_neg hws] at h
    rcases List.mem_cons.mp h with rfl | h2
    · exact absurd hx (by simp_all)
    · exact ih h2 hx

theorem adjWs_cons_of_head {c : Char} {l : PyStr} (hc : pyIsSpace c = false)
    (hl : adjWs l = false) : adjWs (c :: l) = false := by
  cases l with
  | nil => rfl
  | cons b bs => rw [adjWs_cons_cons]; simp [hc, hl]

theorem adjWs_cons_cons_of {a b : Char} {l : PyStr}
    (hab : (pyIsSpace a && pyIsSpace b) = false) (h : adjWs (b :: l) = false) :
    adjWs (a :: b :: l) = false := by
  rw [adjWs_cons_cons]
  simp [hab, h]

theorem adjWs_squeezeWs : ∀ (s : PyStr), adjWs (squeezeWs s) = false := by
  intro s
  induction s using squeezeWs.induct with
  | case1 => simp only [squeezeWs]; rfl
  | case2 c cs hws ih =>
    rw [squeezeWs, if_pos hws]
    cases hdw : cs.dropWhile pyIsSpace with
    | nil =>
      simp only [squeezeWs]
      rfl
    | cons e es =>
      have hne : pyIsSpace e = false := dropWhile_head_neg hdw
      rw [hdw] at ih
      rw [squeezeWs, if_neg (by simp [hne])] at ih ⊢
      exact adjWs_cons_cons_of (by simp [hne]) ih
  | case3 c cs hws ih =>
    rw [squeezeWs, if_neg hws]
    exact adjWs_cons_of_head (by simpa using hws) ih

theorem pyStrip_head_not_ws {s : PyStr} {c : Char} {r : PyStr}
    (h : pyStrip s = c :: r) : pyIsSpace c = false := by
  obtain ⟨hdec, _⟩ := rstrip_decomp pyIsSpace (s.dropWhile pyIsSpace)
  unfold pyStrip at h
  rw [h, List.cons_append] at hdec
  exact dropWhile_head_neg hdec

theorem pyStrip_getLast_not_ws {s : PyStr} {c : Char}
    (h : (pyStrip s).getLast? = some c) : pyIsSpace c = false := by
  unfold pyStrip at h
  rw [List.getLast?_reverse] at h
  cases hY : (s.dropWhile pyIsSpace).reverse.dropWhile pyIsSpace with
  | nil => rw [hY] at h; exact absurd h (by simp)
  | cons d ds =>
    rw [hY] at h
    simp only [List.head?_cons, Option.some.injEq] at h
    rw [← h]
    exact dropWhile_head_neg hY

theorem squeezeWs_fixed :
    ∀ {s : PyStr}, (∀ x ∈ s, pyIsSpace x = true → x = ' ') → adjWs s = false →
      squeezeWs s = s := by
  intro s
  induction s using squeezeWs.induct with
  | case1 => intro _ _; simp only [squeezeWs]
  | case2 c cs hws ih =>
    intro honly hadj
    have hc : c = ' ' := honly c (List.mem_cons_self _ _) hws
    rw [squeezeWs, if_pos hws]
    cases cs with
    | nil =>
      simp only [List.dropWhile_nil, squeezeWs]
      rw [hc]
    | cons d ds =>
      have hd : pyIsSpace d = false := by
        rw [adjWs_cons_cons, Bool.or_eq_false_iff] at hadj
        rcases Bool.and_eq_false_iff.mp hadj.1 with h' | h'
        · exact absurd hws (by simp [h'])
        · exact h'
      have hdw : (d :: ds).dropWhile pyIsSpace = d :: ds := by
        rw [List.dropWhile_cons, if_neg (by simp [hd])]
      rw [hdw] at ih ⊢
      rw [ih (fun x hx => honly x (List.mem_cons_of_mem c hx)) (adjWs_tail hadj), hc]
  | case3 c cs hws ih =>
    intro honly hadj
    rw [squeezeWs, if_neg hws]
    rw [ih (fun x hx => honly x (List.mem_cons_of_mem c hx)) (adjWs_tail hadj)]

theorem pyStrip_fixed {s : PyStr}
    (hhead : ∀ c, s.head? = some c → pyIsSpace c = false)
    (hlast : ∀ c, s.getLast? = some c → pyIsSpace c = false) :
    pyStrip s = s := by
  unfold pyStrip
  cases s with
  | nil => rfl
  | cons c cs =>
    have hc : pyIsSpace c = false := hhead c rfl
    rw [List.dropWhile_cons, if_neg (by simp [hc])]
    cases hrev : (c :: cs).reverse with
    | nil => exact absurd hrev (by simp)
    | cons d ds =>
      have hd : pyIsSpace d = false := by
        apply hlast
        rw [← List.head?_reverse, hrev]
        rfl
      rw [List.dropWhile_cons, if_neg (by simp [hd]), ← hrev,
        List.reverse_reverse]

theorem joinSep_cons_of_ne_nil (sep w : PyStr) {L : List PyStr} (h : L ≠ []) :
    joinSep sep (w :: L) = w ++ sep ++ joinSep sep L := by
  cases L with
  | nil => exact absurd rfl h
  | cons t ts => rfl

theorem findallRuns_props {p : Char → Bool} :
    ∀ {s w : PyStr}, w ∈ findallRuns p s →
      (∀ x ∈ w, p x = true) ∧ (∀ x ∈ w, x ∈ s) := by
  intro s
  induction s using findallRuns.induct p with
  | case1 => intro w h; rw [findallRuns] at h; exact absurd h (List.not_mem_nil w)
  | case2 c cs hcp ih =>
    intro w h
    rw [findallRuns, if_pos hcp] at h
    rcases List.mem_cons.mp h with rfl | h2
    · constructor
      · intro x hx
        rcases List.mem_cons.mp hx with rfl | hx2
        · exact hcp
        · exact List.mem_takeWhile_imp hx2
      · intro x hx
        rcases List.mem_cons.mp hx with rfl | hx2
        · exact List.mem_cons_self _ _
        · exact List.mem_cons_of_mem c ((List.takeWhile_sublist p).subset hx2)
    · rcases ih h2 with ⟨h3, h4⟩
      exact ⟨h3, fun x hx =>
        List.mem_cons_of_mem c ((List.dropWhile_sublist p).subset (h4 x hx))⟩
  | case3 c cs hcp ih =>
    intro w h
    rw [findallRuns, if_neg hcp] at h
    rcases ih h with ⟨h3, h4⟩
    exact ⟨h3, fun x hx => List.mem_cons_of_mem c (h4 x hx)⟩

theorem cons_takeWhile_dropWhile (p : Char → Bool) (c : Char) (cs : PyStr) :
    c :: cs = (c :: cs.takeWhile p) ++ cs.dropWhile p := by
  rw [List.cons_append, List.takeWhile_append_dropWhile]

theorem joinSep_findallRuns {p : Char → Bool} (hp : p ' ' = false) :
    ∀ (n : Nat) (r : PyStr), r.length ≤ n →
      (∀ x ∈ r, p x = true ∨ x = ' ') → adjWs r = false →
      (∀ c, r.head? = some c → pyIsSpace c = false) →
      (∀ c, r.getLast? = some c → pyIsSpace c = false) →
      joinSep [' '] (findallRuns p r) = r := by
  intro n
  induction n with
  | zero =>
    intro r hlen _ _ _ _
    have : r = [] := List.eq_nil_of_length_eq_zero (Nat.le_zero.mp hlen)
    subst this
    rw [findallRuns]
    rfl
  | succ n ihn =>
    intro r hlen hmem hadj hhead hlast
    cases r with
    | nil => rw [findallRuns]; rfl
    | cons c cs =>
      have hcp : p c = true := by
        rcases hmem c (List.mem_cons_self _ _) with h | rfl
        · exact h
        · exact absurd (hhead ' ' rfl) (by simp [pyIsSpace])
      rw [findallRuns, if_pos hcp]
      cases hdw : cs.dropWhile p with
      | nil =>
        have hcs : cs.takeWhile p = cs := by
          conv_rhs => rw [← List.takeWhile_append_dropWhile p cs, hdw]
          rw [List.append_nil]
        rw [findallRuns, hcs]
        rfl
      | cons x rest' =>
        have hxp : p x = false := dropWhile_head_neg hdw
        have hxmem : x ∈ c :: cs :=
          List.mem_cons_of_mem c ((List.dropWhile_sublist p).subset (by simp [hdw]))
        have hxsp : x = ' ' := by
          rcases hmem x hxmem with h | h
          · exact absurd h (by simp [hxp])
          · exact h
        subst hxsp
        have hsplit : c :: cs = (c :: cs.takeWhile p) ++ (' ' :: rest') := by
          rw [← hdw]
          exact cons_takeWhile_dropWhile p c cs
        cases rest' with
        | nil =>
          exfalso
          have hgl : (c :: cs).getLast? = some ' ' := by
            rw [hsplit]
            exact List.getLast?_concat _
          exact absurd (hlast ' ' hgl) (by simp [pyIsSpace])
        | cons y rest'' =>
          have hadj2 : adjWs (' ' :: y :: rest'') = false := by
            apply @adjWs_append_right _ (c :: cs.takeWhile p)
            rw [← hsplit]
            exact hadj
          have hysp : pyIsSpace y = false := by
            rw [adjWs_cons_cons, Bool.or_eq_false_iff] at hadj2
            rcases Bool.and_eq_false_iff.mp hadj2.1 with h' | h'
            · exact absurd h' (by simp [pyIsSpace])
            · exact h'
          have hyp : p y = true := by
            have hymem : y ∈ c :: cs := by
              rw [hsplit]
              exact List.mem_append_right _ (List.mem_cons_of_mem _ (List.mem_cons_self _ _))
            rcases hmem y hymem with h | rfl
            · exact h
            · exact absurd hysp (by simp [pyIsSpace])
          have hrw : findallRuns p (' ' :: y :: rest'') = findallRuns p (y :: rest'') := by
            rw [findallRuns, if_neg (by simp [hp])]
          rw [hrw]
          have hlen2 : (y :: rest'').length ≤ n := by
            have := congrArg List.length hsplit
            simp only [List.length_cons, List.length_append] at this hlen ⊢
            omega
          have hjoin : joinSep [' '] (findallRuns p (y :: rest'')) = y :: rest'' := by
            apply ihn (y :: rest'') hlen2
            · intro x hx
              apply hmem x
              rw [hsplit]
              exact List.mem_append_right _ (List.mem_cons_of_mem _ hx)
            · exact adjWs_tail hadj2
            · intro c0 hc0
              simp only [List.head?_cons, Option.some.injEq] at hc0
              rw [← hc0]
              exact hysp
            · intro c0 hc0
              apply hlast c0
              rw [hsplit, List.getLast?_append, List.getLast?_cons_cons, hc0]
              rfl
          have hne : findallRuns p (y :: rest'') ≠ [] := by
            rw [findallRuns, if_pos hyp]
            simp
          rw [joinSep_cons_of_ne_nil _ _ hne, hjoin, hsplit]
          simp

theorem get_cleaned_chars {t : ConlluToken} {x : Char}
    (hx : x ∈ ConlluToken.get_cleaned t) :
    isWordChar x = true ∧ pyLower x = x := by
  unfold ConlluToken.get_cleaned at hx
  rcases List.mem_map.mp hx with ⟨d, hd, rfl⟩
  exact ⟨isWordChar_pyLower (List.of_mem_filter hd), pyLower_pyLower d⟩

theorem get_cleaned_init_fixed {w : PyStr}
    (hword : ∀ x ∈ w, isWordChar x = true) (hlow : ∀ x ∈ w, pyLower x = x) :
    ConlluToken.get_cleaned (ConlluToken.init w) = w := by
  unfold ConlluToken.get_cleaned ConlluToken.init
  rw [List.filter_eq_self.mpr hword, List.map_congr_left hlow, List.map_id']

/-- C9: the cleaned-text projection is idempotent.  Token level: cleaning the
token built from an already-cleaned text returns the same string.  Sentence
level: re-tokenizing the cleaned sentence string with the pipeline's own
word scan and cleaning the resulting sentence again (any sentence position
and original text) returns the same string. -/
theorem claim_C9 :
    (∀ t : ConlluToken,
      ConlluToken.get_cleaned (ConlluToken.init (ConlluToken.get_cleaned t)) =
        ConlluToken.get_cleaned t) ∧
    (∀ (s : ConlluSentence) (pos2 : Nat) (txt2 : PyStr),
      ConlluSentence.get_cleaned_sentence
        ⟨pos2, txt2,
          (findallWordRuns (ConlluSentence.get_cleaned_sentence s)).map ConlluToken.init⟩ =
        ConlluSentence.get_cleaned_sentence s) := by
  have htoken : ∀ t : ConlluToken,
      ConlluToken.get_cleaned (ConlluToken.init (ConlluToken.get_cleaned t)) =
        ConlluToken.get_cleaned t := by
    intro t
    exact get_cleaned_init_fixed (fun x hx => (get_cleaned_chars hx).1)
      (fun x hx => (get_cleaned_chars hx).2)
  refine ⟨htoken, ?_⟩
  intro s pos2 txt2
  set r := ConlluSentence.get_cleaned_sentence s with hr
  have hchar : ∀ x ∈ r, (isWordChar x = true ∧ pyLower x = x) ∨ x = ' ' := by
    intro x hx
    rw [hr] at hx
    unfold ConlluSentence.get_cleaned_sentence at hx
    rcases mem_squeezeWs (mem_pyStrip hx) with hx1 | hx1
    · rcases mem_joinSep_space hx1 with ⟨u, hu, hxu⟩ | hx2
      · rcases List.mem_map.mp hu with ⟨tok, _, rfl⟩
        exact Or.inl (get_cleaned_chars hxu)
      · exact Or.inr hx2
    · exact Or.inr hx1
  have hadj : adjWs r = false := by
    rw [hr]
    unfold ConlluSentence.get_cleaned_sentence pyStrip
    set y := squeezeWs (joinSep [' '] (s.tokens.map ConlluToken.get_cleaned)) with hy
    have hadjy : adjWs y = false := adjWs_squeezeWs _
    have hadjdw : adjWs (y.dropWhile pyIsSpace) = false := by
      apply @adjWs_append_right _ (y.takeWhile pyIsSpace)
      rw [List.takeWhile_append_dropWhile]
      exact hadjy
    obtain ⟨hdec, _⟩ := rstrip_decomp pyIsSpace (y.dropWhile pyIsSpace)
    apply @adjWs_append_left _ (((y.dropWhile pyIsSpace).reverse.takeWhile pyIsSpace).reverse)
    rw [← hdec]
    exact hadjdw
  have hhead : ∀ c, r.head? = some c → pyIsSpace c = false := by
    intro c hc
    cases hrc : r with
    | nil => rw [hrc] at hc; exact absurd hc (by simp)
    | cons d ds =>
      rw [hrc] at hc
      simp only [List.head?_cons, Option.some.injEq] at hc
      rw [← hc]
      rw [hr] at hrc
      exact pyStrip_head_not_ws hrc
  have hlast : ∀ c, r.getLast? = some c → pyIsSpace c = false := by
    intro c hc
    rw [hr] at hc
    exact pyStrip_getLast_not_ws hc
  have hclean : ∀ w ∈ findallWordRuns r,
      ConlluToken.get_cleaned (ConlluToken.init w) = w := by
    intro w hw
    rcases findallRuns_props hw with ⟨hall, hmem⟩
    refine get_cleaned_init_fixed hall (fun x hx => ?_)
    rcases hchar x (hmem x hx) with ⟨_, hfix⟩ | rfl
    · exact hfix
    · exact absurd (hall ' ' hx) (by decide)
  show pyStrip (squeezeWs (joinSep [' ']
    (((findallWordRuns r).map ConlluToken.init).map ConlluToken.get_cleaned))) = r
  rw [List.map_map]
  have hmapeq : (findallWordRuns r).map (ConlluToken.get_cleaned ∘ ConlluToken.init) =
      findallWordRuns r :=
    (List.map_congr_left (fun w hw => hclean w hw)).trans (List.map_id' _)
  rw [hmapeq]
  unfold findallWordRuns
  rw [joinSep_findallRuns (by decide) r.length r (Nat.le_refl _)
    (fun x hx => (hchar x hx).imp_left And.left) hadj hhead hlast]
  rw [squeezeWs_fixed (fun x hx hws => ?honly) hadj, pyStrip_fixed hhead hlast]
  case honly =>
    rcases hchar x hx with ⟨hword, _⟩ | rfl
    · exact absurd hws (by simp [not_pyIsSpace_of_isWordChar hword])
    · rfl

theorem isWordChar_of_isDigit {c : Char} (h : c.isDigit = true) :
    isWordChar c = true := by
  unfold isWordChar isAlnumChar Char.isAlphanum
  simp [h]

theorem not_pyIsSpace_of_isDigit {c : Char} (h : c.isDigit = true) :
    pyIsSpace c = false :=
  not_pyIsSpace_of_isWordChar (isWordChar_of_isDigit h)

theorem takeWhile_cons_inv {p : Char → Bool} {l : PyStr} {d : Char} {ds : PyStr}
    (h : l.takeWhile p = d :: ds) : p d = true ∧ ∃ l', l = d :: l' := by
  cases l with
  | nil => exact absurd h (by simp)
  | cons a l' =>
    rw [List.takeWhile_cons] at h
    split at h
    · rcases List.cons.inj h with ⟨rfl, rfl⟩
      rename_i hp
      exact ⟨hp, l', rfl⟩
    · exact absurd h (by simp)

theorem pyInt_beforeUnderscore_eq {nm : PyStr} {d : Char} {ds : PyStr} {k : Int}
    (hld : leadingDigits nm = d :: ds)
    (hint : pyInt (beforeUnderscore nm) = some k) :
    k = Int.ofNat (digitsVal (d :: ds)) := by
  obtain ⟨hd, nm', rfl⟩ := takeWhile_cons_inv hld
  have hdus : (decide (d ≠ '_')) = true := by
    simp only [ne_eq, decide_not, Bool.not_eq_true', decide_eq_false_iff_not]
    intro hdu
    rw [hdu] at hd
    exact absurd hd (by decide)
  have hs : beforeUnderscore (d :: nm') = d :: nm'.takeWhile (· ≠ '_') := by
    unfold beforeUnderscore
    rw [List.takeWhile_cons, if_pos hdus]
  set s := beforeUnderscore (d :: nm') with hsdef
  have hsdrop : s.dropWhile pyIsSpace = s := by
    rw [hs, List.dropWhile_cons, if_neg (by simp [not_pyIsSpace_of_isDigit hd])]
  obtain ⟨hdec, hallws⟩ := rstrip_decomp pyIsSpace s
  unfold pyInt at hint
  rw [hsdrop] at hint
  set t := (s.reverse.dropWhile pyIsSpace).reverse with htdef
  set w := (s.reverse.takeWhile pyIsSpace).reverse with hwdef
  have htcons : ∃ t', t = d :: t' := by
    cases ht : t with
    | nil =>
      exfalso
      rw [ht] at hdec
      simp only [List.nil_append] at hdec
      have : pyIsSpace d = true := by
        apply hallws
        rw [← hdec, hs]
        exact List.mem_cons_self _ _
      exact absurd this (by simp [not_pyIsSpace_of_isDigit hd])
    | cons a t' =>
      rw [ht] at hdec
      rw [hs] at hdec
      rcases List.cons.inj hdec with ⟨rfl, _⟩
      exact ⟨t', rfl⟩
  obtain ⟨t', htc⟩ := htcons
  rw [htc] at hint
  have hdplus : d ≠ '+' := by
    intro hh; rw [hh] at hd; exact absurd hd (by decide)
  have hdminus : d ≠ '-' := by
    intro hh; rw [hh] at hd; exact absurd hd (by decide)
  split at hint
  · rename_i heq
    rcases List.cons.inj heq with ⟨h1, _⟩
    exact absurd h1 hdplus
  · rename_i heq
    rcases List.cons.inj heq with ⟨h1, _⟩
    exact absurd h1 hdminus
  · split at hint
    · rename_i hcond
      simp only [Option.some.injEq] at hint
      rw [← hint]
      simp only [Bool.and_eq_true] at hcond
      have htall : ∀ x ∈ d :: t', x.isDigit = true := by
        intro x hx
        exact (List.all_eq_true.mp hcond.2) x hx
      have hldt : leadingDigits (d :: nm') = d :: t' := by
        have hnm : d :: nm' = (d :: t') ++ (w ++ nm'.dropWhile (· ≠ '_')) := by
          conv_lhs => rw [← List.takeWhile_append_dropWhile (· ≠ '_') (d :: nm')]
          have : (d :: nm').takeWhile (· ≠ '_') = s := by rw [hsdef]; rfl
          rw [this, hdec, htc, List.append_assoc]
          rw [List.dropWhile_cons, if_pos hdus]
        unfold leadingDigits
        rw [hnm, takeWhile_all_append _ htall]
        have hwrest : (w ++ nm'.dropWhile (· ≠ '_')).takeWhile Char.isDigit = [] := by
          cases hw : w with
          | nil =>
            simp only [List.nil_append]
            cases hdw : nm'.dropWhile (· ≠ '_') with
            | nil => rfl
            | cons u us =>
              have hu : (decide (u ≠ '_')) = false := dropWhile_head_neg hdw
              simp only [ne_eq, decide_not, Bool.not_eq_false', decide_eq_true_eq] at hu
              rw [List.takeWhile_cons, if_neg (by rw [hu]; decide)]
          | cons u us =>
            have hu : pyIsSpace u = true := by
              apply hallws
              rw [hw]
              exact List.mem_cons_self _ _
            have hund : u.isDigit = false := by
              cases hud : u.isDigit
              · rfl
              · exact absurd hu (by simp [not_pyIsSpace_of_isDigit hud])
            rw [List.cons_append, List.takeWhile_cons, if_neg (by simp [hund])]
        rw [hwrest, List.append_nil]
      rw [hld] at hldt
      rcases List.cons.inj hldt with ⟨_, rfl⟩
      rfl
    · exact absurd hint (by simp)

theorem extractLeadIds_error :
    ∀ {names : List PyStr} {e : DatasetErr},
      extractLeadIds names = Except.error e → e = DatasetErr.typeError := by
  intro names
  induction names with
  | nil => intro e h; exact absurd h (by simp [extractLeadIds])
  | cons nm ns ih =>
    intro e h
    unfold extractLeadIds at h
    split at h
    · exact (Except.error.inj h).symm
    · split at h
      · rename_i heq
        exact ih ((Except.error.inj h) ▸ heq)
      · exact absurd h (by simp)

theorem extractSplitIds_error :
    ∀ {names : List PyStr} {e : DatasetErr},
      extractSplitIds names = Except.error e → e = DatasetErr.valueError := by
  intro names
  induction names with
  | nil => intro e h; exact absurd h (by simp [extractSplitIds])
  | cons nm ns ih =>
    intro e h
    unfold extractSplitIds at h
    split at h
    · exact (Except.error.inj h).symm
    · split at h
      · rename_i heq
        exact ih ((Except.error.inj h) ▸ heq)
      · exact absurd h (by simp)

theorem extract_ids_agree :
    ∀ {names : List PyStr} {ids : List Nat} {fids : List Int},
      extractLeadIds names = Except.ok ids →
      extractSplitIds names = Except.ok fids →
      fids = ids.map Int.ofNat := by
  intro names
  induction names with
  | nil =>
    intro ids fids h1 h2
    simp only [extractLeadIds, Except.ok.injEq] at h1
    simp only [extractSplitIds, Except.ok.injEq] at h2
    rw [← h1, ← h2]
    rfl
  | cons nm ns ih =>
    intro ids fids h1 h2
    unfold extractLeadIds at h1
    unfold extractSplitIds at h2
    cases hld : leadingDigits nm with
    | nil => rw [hld] at h1; exact absurd h1 (by simp)
    | cons d ds =>
      rw [hld] at h1
      dsimp only at h1
      cases h1r : extractLeadIds ns with
      | error e => rw [h1r] at h1; exact absurd h1 (by simp)
      | ok ids0 =>
        rw [h1r] at h1
        dsimp only at h1
        cases hpi : pyInt (beforeUnderscore nm) with
        | none => rw [hpi] at h2; exact absurd h2 (by simp)
        | some k =>
          rw [hpi] at h2
          dsimp only at h2
          cases h2r : extractSplitIds ns with
          | error e => rw [h2r] at h2; exact absurd h2 (by simp)
          | ok fids0 =>
            rw [h2r] at h2
            dsimp only at h2
            simp only [Except.ok.injEq] at h1 h2
            rw [← h1, ← h2, List.map_cons]
            rw [ih h1r h2r]
            rw [pyInt_beforeUnderscore_eq hld hpi]

/-- C10: the duplicate-identifier branch of `_validate_dataset` is
unreachable — for every dataset, validation never fails with the
duplicate-IDs `InconsistentDatasetError`: once the raw-file ID-contiguity
check has passed, the `int(name.split('_')[0])` IDs, whenever they parse at
all, coincide with the leading-digit IDs, which are a permutation of
`1..n` and hence pairwise distinct. -/
theorem claim_C10 (metaNames : List PyStr) (rawFiles : List (PyStr × Nat)) :
    validate_dataset metaNames rawFiles ≠ Except.error DatasetErr.duplicateIds := by
  intro h
  unfold validate_dataset at h
  cases h1 : extractLeadIds metaNames with
  | error e =>
    rw [h1] at h
    dsimp only at h
    rw [extractLeadIds_error h1] at h
    simp at h
  | ok metaIds =>
    rw [h1] at h
    dsimp only at h
    split at h
    · simp at h
    · cases h2 : extractLeadIds (rawFiles.map Prod.fst) with
      | error e =>
        rw [h2] at h
        dsimp only at h
        rw [extractLeadIds_error h2] at h
        simp at h
      | ok rawIds =>
        rw [h2] at h
        dsimp only at h
        split at h
        · simp at h
        · rename_i hsort
          split at h
          · simp at h
          · split at h
            · simp at h
            · cases h3 : extractSplitIds (rawFiles.map Prod.fst) with
              | error e =>
                rw [h3] at h
                dsimp only at h
                rw [extractSplitIds_error h3] at h
                simp at h
              | ok fids =>
                rw [h3] at h
                dsimp only at h
                split at h
                · rename_i hdup
                  push_neg at hsort
                  have hperm := List.perm_insertionSort (· ≤ ·) rawIds
                  have hnodupIds : rawIds.Nodup := by
                    apply hperm.nodup
                    rw [hsort]
                    exact List.nodup_range' _ _
                  have hfid : fids = rawIds.map Int.ofNat :=
                    extract_ids_agree h2 h3
                  have hnodup : fids.Nodup := by
                    rw [hfid]
                    exact hnodupIds.map (fun a b hab => Int.ofNat.inj hab)
                  exact hdup (by rw [List.dedup_eq_self.mpr hnodup])
                · split at h
                  · simp at h
                  · simp at h
